import Mathlib

/-!
# wavy: the ALSA sine-wave player `src/pcm.c`

A shallow embedding of `generate_sine`, `xrun_recovery`, `wait_for_poll` and
`write_and_poll_loop`, followed by the theorems about them.

Conventions of the embedding.

* `double` values are elements of an ordered field `α` with a floor function
  (exact arithmetic; `ℚ` for evaluation, `ℝ` in the theorems).  What comes from
  `<math.h>` (`sin`, `M_PI`) and the bit pattern of a `float` are not part of the
  repository and are taken as the parameter `Libm`.
* What the ALSA queries `snd_pcm_format_*` answer for the global `format` is
  taken as the parameter `Format`; the values of `<errno.h>` and `<poll.h>` are the
  parameter `Sys`.
* Addresses are integers; the sample buffer is a map from addresses to bytes
  together with the list of the stores performed so far, in program order.
* The global `channels` is the length of the `areas` array.
* The device is an oracle: for each primitive of ALSA the result of its `k`-th
  call.  A session records the calls made, in program order.
* An `int` is an integer of 32 bits: a `long` stored into an `int` (`period_size`,
  the result of `snd_pcm_writei`) goes through `wrap_int`, and a product taken in
  `unsigned int` is reduced modulo `2 ^ 32`.  The pointer `ptr` of
  `write_and_poll_loop` is an address in bytes from `samples`.
* `exit(EXIT_FAILURE)` is a result of its own; loops without a bound on their
  rounds take a number of rounds after which they report that they still run.
-/

namespace Pcm

/-! ## Data model -/

/-- The descriptor `snd_pcm_channel_area_t` of one channel: base address, offset of
the first sample in bits, distance between two samples in bits. -/
structure snd_pcm_channel_area_t where
  addr : Int
  first : Nat
  step : Nat
  deriving DecidableEq, Repr

/-- Answers of the ALSA format queries for the global `format`:
`snd_pcm_format_width`, `snd_pcm_format_physical_width`,
`snd_pcm_format_big_endian == 1`, `snd_pcm_format_unsigned == 1`, and whether
`format` is one of `SND_PCM_FORMAT_FLOAT_LE`, `SND_PCM_FORMAT_FLOAT_BE`. -/
structure Format where
  format_bits : Nat
  physical_width : Nat
  big_endian : Bool
  to_unsigned : Bool
  is_float : Bool
  deriving DecidableEq, Repr

/-- The part of `<math.h>` used by `generate_sine`, and the reinterpretation of a
`float` as an `int` done through the union `fval`. -/
structure Libm (α : Type) where
  sin : α → α
  M_PI : α
  float_bits : α → Int

/-- The tunables kept in globals: `format`, `rate`, `freq`, `period_size`. -/
structure Globals (α : Type) where
  format : Format
  rate : Nat
  freq : α
  period_size : Int

/-- The sample memory: the byte at every address, and the stores done so far
(address, byte), oldest first. -/
structure Buffer where
  mem : Int → Int
  log : List (Int × Int)

/-- One store `*(p) = v` of a byte. -/
def Buffer.store (b : Buffer) (p : Int) (v : Int) : Buffer :=
  { mem := Function.update b.mem p v, log := b.log ++ [(p, v)] }

/-! ## `generate_sine` -/

section Generate

variable {α : Type} [LinearOrderedField α] [FloorRing α]

/-- `static double max_phase = 2. * M_PI;` -/
def max_phase (L : Libm α) : α := 2 * L.M_PI

/-- `double step = max_phase*freq/(double)rate;` -/
def phase_step (L : Libm α) (G : Globals α) : α :=
  max_phase L * G.freq / (G.rate : α)

/-- `unsigned int maxval = (1 << (format_bits - 1)) - 1;` -/
def maxval (fmt : Format) : Nat := ((1 <<< (fmt.format_bits - 1)) - 1) % 2 ^ 32

/-- `int bps = format_bits / 8;` -/
def bps (fmt : Format) : Nat := fmt.format_bits / 8

/-- `int phys_bps = snd_pcm_format_physical_width(format) / 8;` -/
def phys_bps (fmt : Format) : Nat := fmt.physical_width / 8

/-- Conversion of a `double` to `int`: the fractional part is discarded. -/
def trunc (x : α) : Int := if 0 ≤ x then ⌊x⌋ else ⌈x⌉

/-- Conversion of an `unsigned int` bit pattern back to `int`. -/
def to_int (u : Nat) : Int :=
  if u % 2 ^ 32 < 2 ^ 31 then (u % 2 ^ 32 : Nat) else (u % 2 ^ 32 : Nat) - 2 ^ 32

/-- The value `res` of one frame (lines 68-74): the scaled sine, or the bits of the
`float`; for an unsigned format the sign bit is flipped,
`res ^= 1U << (format_bits - 1)`. -/
def sample (L : Libm α) (fmt : Format) (phase : α) : Int :=
  let res : Int :=
    if fmt.is_float then L.float_bits (L.sin phase)
    else trunc (L.sin phase * (maxval fmt : α))
  if fmt.to_unsigned then
    to_int ((res % 2 ^ 32).toNat ^^^ ((1 <<< (fmt.format_bits - 1)) % 2 ^ 32))
  else res

/-- The byte `(res >> i * 8) & 0xff`. -/
def sample_byte (res : Int) (i : Nat) : Int := Int.land (res >>> (i * 8)) 0xff

/-- The first loop (lines 48-60): checks every area and computes `samples[chn]`
and `steps[chn]`; `none` is `exit(EXIT_FAILURE)`. -/
def prepare_areas (offset : Nat) : List snd_pcm_channel_area_t → Option (List (Int × Int))
  | [] => some []
  | a :: rest =>
    if a.first % 8 ≠ 0 then none
    else if a.step % 16 ≠ 0 then none
    else
      match prepare_areas offset rest with
      | none => none
      | some ps =>
        some ((a.addr + (a.first / 8 : Nat) + (offset : Int) * (a.step / 8 : Nat),
               ((a.step / 8 : Nat) : Int)) :: ps)

/-- The two inner `for (i = 0; i < bps; i++)` loops (lines 77-83) for one channel
whose sample pointer is `p`. -/
def put_sample (fmt : Format) (res : Int) (p : Int) (b : Buffer) : Buffer :=
  (List.range (bps fmt)).foldl
    (fun (b : Buffer) (i : Nat) =>
      if fmt.big_endian then b.store (p + (phys_bps fmt : Int) - 1 - (i : Int)) (sample_byte res i)
      else b.store (p + (i : Int)) (sample_byte res i))
    b

/-- The loop over the channels of one frame (lines 75-85): stores the sample and
advances `samples[chn]` by `steps[chn]`. -/
def fill_frame (fmt : Format) (res : Int) :
    List (Int × Int) → Buffer → List (Int × Int) × Buffer
  | [], b => ([], b)
  | (p, s) :: rest, b =>
    let r := fill_frame fmt res rest (put_sample fmt res p b)
    ((p + s, s) :: r.1, r.2)

/-- The update of the phase at the end of a frame (lines 86-88). -/
def next_phase (L : Libm α) (G : Globals α) (phase : α) : α :=
  let phase1 := phase + phase_step L G
  if phase1 ≥ max_phase L then phase1 - max_phase L else phase1

/-- The loop `while (count-- > 0)` (lines 62-89), `n` frames to go. -/
def fill_loop (L : Libm α) (G : Globals α) :
    Nat → List (Int × Int) → α → Buffer → α × Buffer
  | 0, _, phase, b => (phase, b)
  | n + 1, ps, phase, b =>
    let r := fill_frame G.format (sample L G.format phase) ps b
    fill_loop L G n r.1 (next_phase L G phase) r.2

/-- The function `generate_sine(areas, offset, count, &phase)`: `none` when it
exits the process, else the phase stored back and the buffer. -/
def generate_sine (L : Libm α) (G : Globals α) (areas : List snd_pcm_channel_area_t)
    (offset : Nat) (count : Int) (phase : α) (b : Buffer) : Option (α × Buffer) :=
  match prepare_areas offset areas with
  | none => none
  | some ps => some (fill_loop L G count.toNat ps phase b)

end Generate

/-! ## The device, as an oracle -/

/-- The values of `<errno.h>` and `<poll.h>` that the program uses. -/
structure Sys where
  EPIPE : Int
  ESTRPIPE : Int
  EAGAIN : Int
  EIO : Int
  ENOMEM : Int
  POLLERR : Nat
  POLLOUT : Nat

/-- The values on Linux. -/
def linux : Sys :=
  { EPIPE := 32, ESTRPIPE := 86, EAGAIN := 11, EIO := 5, ENOMEM := 12,
    POLLERR := 8, POLLOUT := 4 }

/-- The states `snd_pcm_state_t` that the program tests for, and the other ones. -/
inductive snd_pcm_state_t where
  | RUNNING
  | XRUN
  | SUSPENDED
  | other (code : Nat)
  deriving DecidableEq, Repr

/-- The answers of the device: for each primitive, the result of its `k`-th call
(`k = 0` is the first).  `revents k` is the event mask that
`snd_pcm_poll_descriptors_revents` yields after the `k`-th `poll`; `writei k ptr n`
is the result (a `long`) of the `k`-th `snd_pcm_writei`, called with `n` frames and
the pointer that is `ptr` bytes past `samples`. -/
structure Device where
  poll_descriptors_count : Int
  ufds_allocated : Bool
  poll_descriptors : Int
  prepare : Nat → Int
  resume : Nat → Int
  state : Nat → snd_pcm_state_t
  revents : Nat → Nat
  writei : Nat → Int → Int → Int

/-- One call that leaves the program, with its result. -/
inductive Call where
  | prepare (r : Int)
  | resume (r : Int)
  | sleep
  | state (st : snd_pcm_state_t)
  | poll (revents : Nat)
  | writei (ptr : Int) (frames : Int) (r : Int)
  | generate_sine (count : Int)
  deriving DecidableEq, Repr

/-- How many calls of each primitive were made, and all calls in program order. -/
structure Session where
  n_prepare : Nat
  n_resume : Nat
  n_state : Nat
  n_poll : Nat
  n_write : Nat
  trace : List Call
  deriving DecidableEq, Repr

/-- The session before the first call. -/
def Session.start : Session := ⟨0, 0, 0, 0, 0, []⟩

/-- The call `snd_pcm_prepare(handle)`. -/
def call_prepare (dev : Device) (s : Session) : Int × Session :=
  (dev.prepare s.n_prepare,
   { s with n_prepare := s.n_prepare + 1, trace := s.trace ++ [Call.prepare (dev.prepare s.n_prepare)] })

/-- The call `snd_pcm_resume(handle)`. -/
def call_resume (dev : Device) (s : Session) : Int × Session :=
  (dev.resume s.n_resume,
   { s with n_resume := s.n_resume + 1, trace := s.trace ++ [Call.resume (dev.resume s.n_resume)] })

/-- The call `sleep(1)`. -/
def call_sleep (s : Session) : Session :=
  { s with trace := s.trace ++ [Call.sleep] }

/-- The call `snd_pcm_state(handle)`. -/
def call_state (dev : Device) (s : Session) : snd_pcm_state_t × Session :=
  (dev.state s.n_state,
   { s with n_state := s.n_state + 1, trace := s.trace ++ [Call.state (dev.state s.n_state)] })

/-- The calls `poll(ufds, count, -1)` and `snd_pcm_poll_descriptors_revents`. -/
def call_poll (dev : Device) (s : Session) : Nat × Session :=
  (dev.revents s.n_poll,
   { s with n_poll := s.n_poll + 1, trace := s.trace ++ [Call.poll (dev.revents s.n_poll)] })

/-- Conversion of a `long` to an `int` of 32 bits (two's complement). -/
def wrap_int (x : Int) : Int := (x + 2 ^ 31) % 2 ^ 32 - 2 ^ 31

/-- The value that `err = snd_pcm_writei(handle, ptr, cptr)` leaves in `int err` at
the `k`-th call: the `long` that the device returns, converted to `int`. -/
def Device.err (dev : Device) (k : Nat) (ptr cptr : Int) : Int :=
  wrap_int (dev.writei k ptr cptr)

/-- The call `err = snd_pcm_writei(handle, ptr, cptr)`; the call is recorded with
the value of `err`. -/
def call_writei (dev : Device) (s : Session) (ptr cptr : Int) : Int × Session :=
  (dev.err s.n_write ptr cptr,
   { s with n_write := s.n_write + 1,
            trace := s.trace ++ [Call.writei ptr cptr (dev.err s.n_write ptr cptr)] })

/-! ## `xrun_recovery` and `wait_for_poll`

Loops that may run forever take a bound on the number of iterations; `none` as a
result says that the bound was reached. The messages printed are not modelled. -/

/-- The loop `while ((err = snd_pcm_resume(handle)) == -EAGAIN) sleep(1);`, giving
the last `err`. -/
def resume_loop (S : Sys) (dev : Device) : Nat → Session → Option Int × Session
  | 0, s => (none, s)
  | fuel + 1, s =>
    let r := call_resume dev s
    if r.1 = -S.EAGAIN then resume_loop S dev fuel (call_sleep r.2)
    else (some r.1, r.2)

/-- The calls of `n` rounds of the loop above that end in "try again": the resume
and the one-second wait after it. -/
def backoff_calls (S : Sys) : Nat → List Call
  | 0 => []
  | n + 1 => Call.resume (-S.EAGAIN) :: Call.sleep :: backoff_calls S n

/-- The function `xrun_recovery(handle, err)`. -/
def xrun_recovery (S : Sys) (dev : Device) (fuel : Nat) (s : Session) (err : Int) :
    Option Int × Session :=
  if err = -S.EPIPE then
    (some 0, (call_prepare dev s).2)
  else if err = -S.ESTRPIPE then
    match resume_loop S dev fuel s with
    | (none, s1) => (none, s1)
    | (some err1, s1) =>
      if err1 < 0 then (some 0, (call_prepare dev s1).2)
      else (some 0, s1)
  else (some err, s)

/-- The function `wait_for_poll(handle, ufds, count)`. -/
def wait_for_poll (S : Sys) (dev : Device) : Nat → Session → Option Int × Session
  | 0, s => (none, s)
  | fuel + 1, s =>
    let r := call_poll dev s
    if r.1 &&& S.POLLERR ≠ 0 then (some (-S.EIO), r.2)
    else if r.1 &&& S.POLLOUT ≠ 0 then (some 0, r.2)
    else wait_for_poll S dev fuel r.2

/-! ## `write_and_poll_loop` -/

/-- How a piece of `write_and_poll_loop` ends: it goes on with the flag `init`, the
function returns `err`, the process exits, or the bound on iterations was reached. -/
inductive Status where
  | next (init : Bool)
  | ret (err : Int)
  | exit
  | running
  deriving DecidableEq, Repr

/-- The test `snd_pcm_state(handle) == SND_PCM_STATE_XRUN ||
snd_pcm_state(handle) == SND_PCM_STATE_SUSPENDED`; the second call is made only
when the first test fails. -/
def state_is_xrun_or_suspended (dev : Device) (s : Session) : Bool × Session :=
  let r1 := call_state dev s
  if r1.1 = snd_pcm_state_t.XRUN then (true, r1.2)
  else
    let r2 := call_state dev r1.2
    (decide (r2.1 = snd_pcm_state_t.SUSPENDED), r2.2)

/-- The block `err = wait_for_poll(...); if (err < 0) { ... }`, which stands at
lines 282-296 and again at lines 319-333. -/
def poll_block (S : Sys) (dev : Device) (fuel : Nat) (init : Bool) (s : Session) :
    Status × Session :=
  match wait_for_poll S dev fuel s with
  | (none, s1) => (Status.running, s1)
  | (some err, s1) =>
    if err < 0 then
      let c := state_is_xrun_or_suspended dev s1
      if c.1 then
        let r := call_state dev c.2
        let err1 := if r.1 = snd_pcm_state_t.XRUN then -S.EPIPE else -S.ESTRPIPE
        match xrun_recovery S dev fuel r.2 err1 with
        | (none, s2) => (Status.running, s2)
        | (some e, s2) => if e < 0 then (Status.exit, s2) else (Status.next true, s2)
      else (Status.ret err, c.2)
    else (Status.next init, s1)

/-- The loop `while (cptr > 0)` (lines 301-334).  `ptr` is the address held in
`signed short *ptr`, in bytes from `samples`: `ptr += err * channels` moves it by two
bytes for each of the `err * channels` elements, a product taken in `unsigned int`.
`cptr` and `err` are `int`; `channels` is the global. -/
def write_period (S : Sys) (dev : Device) (channels : Nat) :
    Nat → Int → Int → Bool → Session → Status × Session
  | 0, _, _, _, s => (Status.running, s)
  | fuel + 1, ptr, cptr, init, s =>
    if cptr > 0 then
      let w := call_writei dev s ptr cptr
      if w.1 < 0 then
        match xrun_recovery S dev fuel w.2 w.1 with
        | (none, s2) => (Status.running, s2)
        | (some e, s2) => if e < 0 then (Status.exit, s2) else (Status.next true, s2)
      else
        let st := call_state dev w.2
        let init1 := if st.1 = snd_pcm_state_t.RUNNING then false else init
        let ptr1 := ptr + 2 * ((w.1 * (channels : Int)) % 2 ^ 32)
        let cptr1 := cptr - w.1
        if cptr1 = 0 then (Status.next init1, st.2)
        else
          match poll_block S dev fuel init1 st.2 with
          | (Status.next init2, s3) => write_period S dev channels fuel ptr1 cptr1 init2 s3
          | other => other
    else (Status.next init, s)

section Transfer

variable {α : Type} [LinearOrderedField α] [FloorRing α]

/-- The loop `while (1)` of `write_and_poll_loop` (lines 280-335).  The global
`period_size` is a `long`; it is converted to `int` where it is passed as the
`int count` of `generate_sine` (line 298) and where it is assigned to `int cptr`
(line 300). -/
def transfer_loop (S : Sys) (dev : Device) (L : Libm α) (G : Globals α)
    (areas : List snd_pcm_channel_area_t) :
    Nat → Bool → α → Buffer → Session → Status × Session
  | 0, _, _, _, s => (Status.running, s)
  | fuel + 1, init, phase, b, s =>
    match (if init then (Status.next init, s) else poll_block S dev fuel init s) with
    | (Status.next init1, s1) =>
      let s2 : Session :=
        { s1 with trace := s1.trace ++ [Call.generate_sine (wrap_int G.period_size)] }
      match generate_sine L G areas 0 (wrap_int G.period_size) phase b with
      | none => (Status.exit, s2)
      | some g =>
        match write_period S dev areas.length fuel 0 (wrap_int G.period_size) init1 s2 with
        | (Status.next init2, s3) => transfer_loop S dev L G areas fuel init2 g.1 g.2 s3
        | other => other
    | other => other

/-- The function `write_and_poll_loop(handle, samples, areas)`. -/
def write_and_poll_loop (S : Sys) (dev : Device) (L : Libm α) (G : Globals α)
    (areas : List snd_pcm_channel_area_t) (fuel : Nat) (b : Buffer) : Status × Session :=
  if dev.poll_descriptors_count ≤ 0 then (Status.ret dev.poll_descriptors_count, Session.start)
  else if !dev.ufds_allocated then (Status.ret (-S.ENOMEM), Session.start)
  else if dev.poll_descriptors < 0 then (Status.ret dev.poll_descriptors, Session.start)
  else transfer_loop S dev L G areas fuel true 0 b Session.start

end Transfer

/-! ## Devices and tunables for the examples -/

/-- A stand-in for `<math.h>` over the rationals: `sin` is cut after the cubic
term, `M_PI` is 355/113. -/
def libm_q : Libm ℚ := { sin := fun x => x - x ^ 3 / 6, M_PI := 355 / 113, float_bits := fun _ => 0 }

/-- The defaults of the program: `S16_LE`, 44100 Hz, 440 Hz, with a period of 4 frames. -/
def globals_q : Globals ℚ :=
  { format := ⟨16, 16, false, false, false⟩, rate := 44100, freq := 440, period_size := 4 }

/-- The buffer before the first store, all bytes zero. -/
def Buffer.zero : Buffer := { mem := fun _ => 0, log := [] }

/-- A device that takes every write entirely and is always ready; `resume` says
"try again" twice and then succeeds. -/
def dev_resume_twice : Device :=
  { poll_descriptors_count := 1, ufds_allocated := true, poll_descriptors := 0,
    prepare := fun _ => 0, resume := fun k => if k < 2 then -11 else 0,
    state := fun _ => snd_pcm_state_t.RUNNING, revents := fun _ => 4,
    writei := fun _ _ n => n }

/-- A device whose writes all report a suspend and whose `resume` says "try again"
once and then fails with `-ENOSYS` (-38). -/
def dev_resume_fails : Device :=
  { poll_descriptors_count := 1, ufds_allocated := true, poll_descriptors := 0,
    prepare := fun _ => 0, resume := fun k => if k < 1 then -11 else -38,
    state := fun _ => snd_pcm_state_t.RUNNING, revents := fun _ => 4,
    writei := fun _ _ _ => -86 }

/-- A device whose writes all report an underrun. -/
def dev_underrun : Device :=
  { poll_descriptors_count := 1, ufds_allocated := true, poll_descriptors := 0,
    prepare := fun _ => 0, resume := fun _ => 0,
    state := fun _ => snd_pcm_state_t.RUNNING, revents := fun _ => 4,
    writei := fun _ _ _ => -32 }

/-- A device whose first write fails with `-EBADFD` (-77) and whose later writes
take half of the frames, whose polls all signal an error, and which is in the state
`SETUP`. -/
def dev_broken : Device :=
  { poll_descriptors_count := 1, ufds_allocated := true, poll_descriptors := 0,
    prepare := fun _ => 0, resume := fun _ => 0,
    state := fun _ => snd_pcm_state_t.other 1, revents := fun _ => 8,
    writei := fun k _ n => if k = 0 then -77 else (n + 1) / 2 }

/-- A device with two spurious wakes before every third poll, which carries the
error flag and the output flag. -/
def dev_spurious : Device :=
  { poll_descriptors_count := 1, ufds_allocated := true, poll_descriptors := 0,
    prepare := fun _ => 0, resume := fun _ => 0,
    state := fun _ => snd_pcm_state_t.RUNNING,
    revents := fun k => if k % 3 = 2 then 12 else 1,
    writei := fun _ _ n => n }

/-- A device that takes half of the frames of every write, and is ready at the
second poll of every wait. -/
def dev_half : Device :=
  { poll_descriptors_count := 1, ufds_allocated := true, poll_descriptors := 0,
    prepare := fun _ => 0, resume := fun _ => 0,
    state := fun _ => snd_pcm_state_t.RUNNING,
    revents := fun k => if k % 2 = 1 then 4 else 0,
    writei := fun _ _ n => (n + 1) / 2 }

/-! ## Reading a trace -/

/-- The calls that neither write frames nor generate a period. -/
def Call.quiet : Call → Bool
  | Call.writei _ _ _ => false
  | Call.generate_sine _ => false
  | _ => true

/-- The sum of the results of the writes in a list of calls. -/
def frames_written : List Call → Int
  | [] => 0
  | Call.writei _ _ r :: rest => r + frames_written rest
  | _ :: rest => frames_written rest

/-- A scan of the calls of one period of `period_size` frames with `c` frames still
to write: every write asks for exactly the frames still to write, with the pointer
`2 * ((period_size - c) * channels)` bytes past `samples`, and what it returns is
taken off `c`. -/
def writes_ok (period_size channels : Int) : Int → List Call → Prop
  | _, [] => True
  | c, Call.writei p n r :: rest =>
    (0 < n ∧ n ≤ period_size ∧ n = c ∧ p = 2 * ((period_size - n) * channels)) ∧
      writes_ok period_size channels (c - r) rest
  | c, _ :: rest => writes_ok period_size channels c rest

/-- The session `t` continues `s` by quiet calls only. -/
def quiet_ext (s t : Session) : Prop :=
  ∃ ext, t.trace = s.trace ++ ext ∧ ∀ c ∈ ext, Call.quiet c = true

/-- The session `t` continues `s`: its calls are those of `s` and then some more. -/
def trace_ext (s t : Session) : Prop :=
  ∃ ext, t.trace = s.trace ++ ext

/-! ## The reference for the packing of the samples -/

/-- The stores of a list (address, byte), done in the order of the list. -/
def Buffer.stores (b : Buffer) (ws : List (Int × Int)) : Buffer :=
  ws.foldl (fun b w => b.store w.1 w.2) b

/-- Reference `packSample`, after the words of the specification: the `bps` bytes
`(v >> 8*i) & 0xff` of the value `v`, each with its place in the physical container
of `phys_bps` bytes: `i` when little-endian (least-significant byte first),
`phys_bps - 1 - i` when big-endian (most-significant byte first, right-aligned). -/
def packSample (v : Int) (bps phys_bps : Nat) (big_endian : Bool) : List (Int × Int) :=
  (List.range bps).map fun (i : Nat) =>
    (if big_endian then (phys_bps : Int) - 1 - (i : Int) else (i : Int),
     Int.land (v >>> (8 * i)) 0xff)

/-- The address of the sample of frame `m` in the area `a`:
`addr + first/8 + m*step/8`. -/
def sample_base (a : snd_pcm_channel_area_t) (m : Nat) : Int :=
  a.addr + ((a.first / 8 : Nat) : Int) + ((m * a.step / 8 : Nat) : Int)

section Reference

variable {α : Type} [LinearOrderedField α] [FloorRing α]

/-- The integer sample of frame `n` of a call that starts at `phase`. -/
def frame_value (L : Libm α) (G : Globals α) (phase : α) (n : Nat) : Int :=
  sample L G.format ((next_phase L G)^[n] phase)

/-- The stores that the specification asks of `generate_sine`: for every frame
`n < count` and every channel, the bytes of `packSample` at the base of the sample. -/
def reference_stores (L : Libm α) (G : Globals α) (areas : List snd_pcm_channel_area_t)
    (offset count : Nat) (phase : α) : List (Int × Int) :=
  (List.range count).flatMap fun n =>
    areas.flatMap fun a =>
      (packSample (frame_value L G phase n) (bps G.format) (phys_bps G.format)
        G.format.big_endian).map fun w => (sample_base a (offset + n) + w.1, w.2)

end Reference

/-! ## Reading samples back -/

/-- The signed 16-bit little-endian sample at the address `a`: the byte at `a` is
the low one, the byte at `a + 1` the high one. -/
def read_s16_le (mem : Int → Int) (a : Int) : Int :=
  if mem a + 256 * mem (a + 1) < 32768 then mem a + 256 * mem (a + 1)
  else mem a + 256 * mem (a + 1) - 65536

/-! ## Reading a big-endian sample back, and the layout of `main` -/

/-- Reading back the `bps` bytes of the sample whose container of `phys_bps` bytes
starts at `p`, written by the big-endian path: byte `i` is the one at the offset
`phys_bps - 1 - i` (the reverse of the order in memory), and the bytes are put
together as the sum of `byte_i * 256^i`. -/
def read_be (mem : Int → Int) (p : Int) (bps phys_bps : Nat) : Int :=
  ((List.range bps).map fun (i : Nat) =>
    mem (p + (phys_bps : Int) - 1 - (i : Int)) * 256 ^ i).sum

/-- Sign extension of a value of `bits` bits. -/
def sign_extend (bits : Nat) (u : Int) : Int :=
  if u < 2 ^ (bits - 1) then u else u - 2 ^ bits

/-- The areas that `main` builds (lines 383-387) for the buffer at the address
`samples`: `first = chn * physical_width`, `step = channels * physical_width`. -/
def main_areas (samples : Int) (channels physical_width : Nat) :
    List snd_pcm_channel_area_t :=
  (List.range channels).map fun chn =>
    { addr := samples, first := chn * physical_width, step := channels * physical_width }

section MainReference

variable {α : Type} [LinearOrderedField α] [FloorRing α]

end MainReference

/-! ## Theorems: the phase of `generate_sine` -/


section PhaseLemmas

variable {α : Type} [LinearOrderedField α]

/-- The phase that `fill_loop` returns is the frame update iterated `n` times. -/
theorem fill_loop_phase [FloorRing α] (L : Libm α) (G : Globals α) (n : Nat) (ps : List (Int × Int))
    (phase : α) (b : Buffer) :
    (fill_loop L G n ps phase b).1 = (next_phase L G)^[n] phase := by
  induction n generalizing ps phase b with
  | zero => rfl
  | succ n ih => simp only [fill_loop, Function.iterate_succ, Function.comp_apply]; exact ih _ _ _

/-- One frame keeps the phase in `[0, max_phase)` when the step is in `[0, max_phase]`. -/
theorem next_phase_range (L : Libm α) (G : Globals α) (phase : α)
    (h0 : 0 ≤ phase_step L G) (h1 : phase_step L G ≤ max_phase L)
    (hp0 : 0 ≤ phase) (hp1 : phase < max_phase L) :
    0 ≤ next_phase L G phase ∧ next_phase L G phase < max_phase L := by
  unfold next_phase
  simp only [ge_iff_le]
  split_ifs with h
  · constructor <;> linarith
  · constructor
    · linarith
    · exact lt_of_not_le h

/-- Any number of frames keeps the phase in `[0, max_phase)`. -/
theorem iterate_next_phase_range (L : Libm α) (G : Globals α)
    (h0 : 0 ≤ phase_step L G) (h1 : phase_step L G ≤ max_phase L) (n : Nat) (phase : α)
    (hp0 : 0 ≤ phase) (hp1 : phase < max_phase L) :
    0 ≤ (next_phase L G)^[n] phase ∧ (next_phase L G)^[n] phase < max_phase L := by
  induction n generalizing phase with
  | zero => exact ⟨hp0, hp1⟩
  | succ n ih =>
    rw [Function.iterate_succ, Function.comp_apply]
    have h := next_phase_range L G phase h0 h1 hp0 hp1
    exact ih _ h.1 h.2

/-- The step of the phase is in `[0, max_phase]` when `0 ≤ freq ≤ rate`. -/
theorem phase_step_range (L : Libm α) (G : Globals α) (hpi : 0 ≤ L.M_PI)
    (hr : 0 < G.rate) (hf0 : 0 ≤ G.freq) (hf1 : G.freq ≤ (G.rate : α)) :
    0 ≤ phase_step L G ∧ phase_step L G ≤ max_phase L := by
  have hr' : (0 : α) < (G.rate : α) := by exact_mod_cast hr
  have hm : 0 ≤ max_phase L := by unfold max_phase; linarith
  unfold phase_step
  constructor
  · exact div_nonneg (mul_nonneg hm hf0) hr'.le
  · rw [div_le_iff₀ hr']
    exact mul_le_mul_of_nonneg_left hf1 hm

end PhaseLemmas

/-- C1 (as amended): in exact real arithmetic, with `step = 2*pi*freq/rate`, when
`0 <= freq <= rate` (so that `0 <= step <= 2*pi`), from every starting phase in
`[0, 2*pi)` and for every frame count, `generate_sine` on a layout that passes its
check returns, the phase it stores back is the phase after `count` frames, and the
phase after any number of frames is in `[0, 2*pi)`. -/
theorem generate_sine_phase_wrap (L : Libm ℝ) (G : Globals ℝ)
    (areas : List snd_pcm_channel_area_t) (offset : Nat) (count : Int) (phase : ℝ)
    (b : Buffer) (hpi : L.M_PI = Real.pi) (hr : 0 < G.rate) (hf0 : 0 ≤ G.freq)
    (hf1 : G.freq ≤ (G.rate : ℝ)) (hp0 : 0 ≤ phase) (hp1 : phase < 2 * Real.pi)
    (hacc : (prepare_areas offset areas).isSome = true) :
    ∃ r, generate_sine L G areas offset count phase b = some r ∧
      r.1 = (next_phase L G)^[count.toNat] phase ∧
      (∀ k : Nat, 0 ≤ (next_phase L G)^[k] phase ∧ (next_phase L G)^[k] phase < 2 * Real.pi) ∧
      0 ≤ r.1 ∧ r.1 < 2 * Real.pi := by
  obtain ⟨ps, hps⟩ := Option.isSome_iff_exists.mp hacc
  have hs := phase_step_range L G (by rw [hpi]; exact Real.pi_pos.le) hr hf0 hf1
  have hm : max_phase L = 2 * Real.pi := by unfold max_phase; rw [hpi]
  have hall : ∀ k : Nat, 0 ≤ (next_phase L G)^[k] phase ∧
      (next_phase L G)^[k] phase < 2 * Real.pi := by
    intro k
    have h := iterate_next_phase_range L G hs.1 hs.2 k phase hp0 (by rw [hm]; exact hp1)
    rw [hm] at h
    exact h
  refine ⟨fill_loop L G count.toNat ps phase b, by simp [generate_sine, hps],
    fill_loop_phase L G _ _ _ _, hall, ?_⟩
  rw [fill_loop_phase]
  exact hall _

/-- Witness of `generate_sine_phase_wrap`: 440 Hz at 44100 Hz, mono, phase 0, 4410 frames. -/
theorem generate_sine_phase_wrap_witness :
    ∃ r, generate_sine (⟨Real.sin, Real.pi, fun _ => 0⟩ : Libm ℝ)
        ⟨⟨16, 16, false, false, false⟩, 44100, 440, 4410⟩ [⟨0, 0, 16⟩] 0 4410 0
        ⟨fun _ => 0, []⟩ = some r ∧
      r.1 = (next_phase (⟨Real.sin, Real.pi, fun _ => 0⟩ : Libm ℝ)
        ⟨⟨16, 16, false, false, false⟩, 44100, 440, 4410⟩)^[(4410 : Int).toNat] 0 ∧
      (∀ k : Nat, 0 ≤ (next_phase (⟨Real.sin, Real.pi, fun _ => 0⟩ : Libm ℝ)
          ⟨⟨16, 16, false, false, false⟩, 44100, 440, 4410⟩)^[k] 0 ∧
        (next_phase (⟨Real.sin, Real.pi, fun _ => 0⟩ : Libm ℝ)
          ⟨⟨16, 16, false, false, false⟩, 44100, 440, 4410⟩)^[k] (0 : ℝ) < 2 * Real.pi) ∧
      0 ≤ r.1 ∧ r.1 < 2 * Real.pi :=
  generate_sine_phase_wrap _ _ _ _ _ _ _ rfl (by decide) (by norm_num) (by norm_num)
    le_rfl (by positivity) (by decide)

/-- C1 as stated fails: with `freq = 2 * rate` (88200 Hz at 44100 Hz) one frame from
phase 0 stores back the phase `2*pi`, which is not below `2*pi`. -/
theorem generate_sine_phase_wrap_counterexample :
    ∃ r, generate_sine (⟨Real.sin, Real.pi, fun _ => 0⟩ : Libm ℝ)
        ⟨⟨16, 16, false, false, false⟩, 44100, 88200, 4410⟩ [⟨0, 0, 16⟩] 0 1 0
        ⟨fun _ => 0, []⟩ = some r ∧ 0 ≤ (0 : ℝ) ∧ (0 : ℝ) < 2 * Real.pi ∧
        ¬ (r.1 < 2 * Real.pi) := by
  refine ⟨_, rfl, le_rfl, by positivity, ?_⟩
  rw [fill_loop_phase]
  have hpi := Real.pi_pos
  have hs : phase_step (⟨Real.sin, Real.pi, fun _ => 0⟩ : Libm ℝ)
      ⟨⟨16, 16, false, false, false⟩, 44100, 88200, 4410⟩ = 4 * Real.pi := by
    simp only [phase_step, max_phase]; push_cast; ring
  have hn : next_phase (⟨Real.sin, Real.pi, fun _ => 0⟩ : Libm ℝ)
      ⟨⟨16, 16, false, false, false⟩, 44100, 88200, 4410⟩ 0 = 2 * Real.pi := by
    simp only [next_phase, hs, max_phase, zero_add, ge_iff_le]
    rw [if_pos (by linarith)]; ring
  show ¬ ((next_phase _ _)^[(1 : Int).toNat] (0 : ℝ) < 2 * Real.pi)
  simp only [Int.toNat_one, Function.iterate_one, hn, lt_self_iff_false, not_false_eq_true]

/-! ## Theorems: the recovery and the readiness wait -/

/-- The masks of `k` polls in a row, starting with the `n`-th. -/
theorem poll_calls_succ (dev : Device) (n k : Nat) :
    (List.range (k + 1)).map (fun i => Call.poll (dev.revents (n + i))) =
      Call.poll (dev.revents n) ::
        (List.range k).map (fun i => Call.poll (dev.revents (n + 1 + i))) := by
  rw [List.range_succ_eq_map, List.map_cons, List.map_map]
  simp only [Nat.add_zero, List.cons.injEq, true_and]
  apply List.map_congr_left
  intro i _
  simp only [Function.comp_apply, Nat.succ_eq_add_one]
  congr 2
  omega

/-- The readiness wait on a stream of masks: `k` spurious wakes, then a mask with
the error or the output flag. -/
theorem wait_for_poll_spec (S : Sys) (dev : Device) (k : Nat) (fuel : Nat) (s : Session)
    (hfuel : k < fuel)
    (hspur : ∀ i, i < k → dev.revents (s.n_poll + i) &&& S.POLLERR = 0 ∧
      dev.revents (s.n_poll + i) &&& S.POLLOUT = 0)
    (hterm : dev.revents (s.n_poll + k) &&& S.POLLERR ≠ 0 ∨
      dev.revents (s.n_poll + k) &&& S.POLLOUT ≠ 0) :
    wait_for_poll S dev fuel s =
      (some (if dev.revents (s.n_poll + k) &&& S.POLLERR ≠ 0 then -S.EIO else 0),
       { s with n_poll := s.n_poll + (k + 1),
                trace := s.trace ++
                  (List.range (k + 1)).map (fun i => Call.poll (dev.revents (s.n_poll + i))) }) := by
  induction k generalizing fuel s with
  | zero =>
    obtain ⟨f, rfl⟩ : ∃ f, fuel = f + 1 := ⟨fuel - 1, by omega⟩
    simp only [Nat.add_zero] at hterm ⊢
    by_cases he : dev.revents s.n_poll &&& S.POLLERR ≠ 0
    · simp [wait_for_poll, call_poll, he, List.range_succ]
    · have ho : dev.revents s.n_poll &&& S.POLLOUT ≠ 0 := by tauto
      simp [wait_for_poll, call_poll, he, ho, List.range_succ]
  | succ k ih =>
    obtain ⟨f, rfl⟩ : ∃ f, fuel = f + 1 := ⟨fuel - 1, by omega⟩
    have h0 := hspur 0 (by omega)
    simp only [Nat.add_zero] at h0
    have hrec := ih f (call_poll dev s).2 (by omega)
      (by
        intro i hi
        have := hspur (i + 1) (by omega)
        simpa [call_poll, Nat.add_assoc, Nat.add_comm 1 i] using this)
      (by simpa [call_poll, Nat.add_assoc, Nat.add_comm 1 k] using hterm)
    have hunf : wait_for_poll S dev (f + 1) s = wait_for_poll S dev f (call_poll dev s).2 := by
      simp [wait_for_poll, call_poll, h0.1, h0.2]
    rw [hunf, hrec, poll_calls_succ dev s.n_poll (k + 1)]
    simp [call_poll, Nat.add_assoc, Nat.add_comm 1 k]
    omega

/-- While the masks carry neither flag the readiness wait does not return. -/
theorem wait_for_poll_spurious (S : Sys) (dev : Device) (fuel : Nat) (s : Session)
    (hspur : ∀ i, i < fuel → dev.revents (s.n_poll + i) &&& S.POLLERR = 0 ∧
      dev.revents (s.n_poll + i) &&& S.POLLOUT = 0) :
    (wait_for_poll S dev fuel s).1 = none := by
  induction fuel generalizing s with
  | zero => rfl
  | succ f ih =>
    have h0 := hspur 0 (by omega)
    simp only [Nat.add_zero] at h0
    have hunf : wait_for_poll S dev (f + 1) s = wait_for_poll S dev f (call_poll dev s).2 := by
      simp [wait_for_poll, call_poll, h0.1, h0.2]
    rw [hunf]
    apply ih
    intro i hi
    have := hspur (i + 1) (by omega)
    simpa [call_poll, Nat.add_assoc, Nat.add_comm 1 i] using this

/-- The resume loop on a stream of answers: `n` times "try again", then `e`. -/
theorem resume_loop_spec (S : Sys) (dev : Device) (n : Nat) (fuel : Nat) (s : Session)
    (e : Int) (hfuel : n < fuel)
    (hagain : ∀ i, i < n → dev.resume (s.n_resume + i) = -S.EAGAIN)
    (hlast : dev.resume (s.n_resume + n) = e) (he : e ≠ -S.EAGAIN) :
    resume_loop S dev fuel s =
      (some e, { s with n_resume := s.n_resume + (n + 1),
                        trace := s.trace ++ (backoff_calls S n ++ [Call.resume e]) }) := by
  induction n generalizing fuel s with
  | zero =>
    obtain ⟨f, rfl⟩ : ∃ f, fuel = f + 1 := ⟨fuel - 1, by omega⟩
    simp only [Nat.add_zero] at hlast
    simp [resume_loop, call_resume, hlast, he, backoff_calls]
  | succ n ih =>
    obtain ⟨f, rfl⟩ : ∃ f, fuel = f + 1 := ⟨fuel - 1, by omega⟩
    have h0 := hagain 0 (by omega)
    simp only [Nat.add_zero] at h0
    have hrec := ih f (call_sleep (call_resume dev s).2) (by omega)
      (by
        intro i hi
        have := hagain (i + 1) (by omega)
        simpa [call_sleep, call_resume, Nat.add_assoc, Nat.add_comm 1 i] using this)
      (by simpa [call_sleep, call_resume, Nat.add_assoc, Nat.add_comm 1 n] using hlast)
    have hunf : resume_loop S dev (f + 1) s =
        resume_loop S dev f (call_sleep (call_resume dev s).2) := by
      simp [resume_loop, call_resume, h0]
    rw [hunf, hrec]
    simp [call_sleep, call_resume, backoff_calls, h0, Nat.add_assoc, Nat.add_comm 1 n]
    omega

/-- The recovery from an underrun: one `prepare`, result 0. -/
theorem xrun_recovery_epipe (S : Sys) (dev : Device) (fuel : Nat) (s : Session) :
    xrun_recovery S dev fuel s (-S.EPIPE) = (some 0, (call_prepare dev s).2) := by
  simp [xrun_recovery]

/-- The recovery from a suspend, given how the resume loop ends. -/
theorem xrun_recovery_estrpipe (S : Sys) (dev : Device) (fuel : Nat) (s s1 : Session)
    (e : Int) (hne : S.EPIPE ≠ S.ESTRPIPE) (hloop : resume_loop S dev fuel s = (some e, s1)) :
    xrun_recovery S dev fuel s (-S.ESTRPIPE) =
      (some 0, if e < 0 then (call_prepare dev s1).2 else s1) := by
  have h : ¬ (-S.ESTRPIPE = -S.EPIPE) := by
    intro h; exact hne (by linarith)
  simp only [xrun_recovery, h, if_false, if_true, hloop]
  split_ifs <;> rfl

/-- Any other code is handed back by the recovery, and nothing is called. -/
theorem xrun_recovery_other (S : Sys) (dev : Device) (fuel : Nat) (s : Session) (err : Int)
    (h1 : err ≠ -S.EPIPE) (h2 : err ≠ -S.ESTRPIPE) :
    xrun_recovery S dev fuel s err = (some err, s) := by
  simp [xrun_recovery, h1, h2]

/-- The rounds of "try again" hold exactly `n` waits. -/
theorem count_sleep_backoff_calls (S : Sys) (n : Nat) :
    List.count Call.sleep (backoff_calls S n) = n := by
  induction n with
  | zero => rfl
  | succ n ih => simp [backoff_calls, ih]

/-- The rounds of "try again" hold no `prepare`. -/
theorem prepare_not_mem_backoff_calls (S : Sys) (n : Nat) (r : Int) :
    Call.prepare r ∉ backoff_calls S n := by
  induction n with
  | zero => simp [backoff_calls]
  | succ n ih => simp [backoff_calls, ih]

/-! ## Theorems: one round of the loops of `write_and_poll_loop` -/

/-- One round of `while (cptr > 0)` whose write fails: the recovery decides. -/
theorem write_period_error (S : Sys) (dev : Device) (channels fuel : Nat) (ptr cptr : Int)
    (init : Bool) (s : Session) (hc : 0 < cptr) (hw : dev.err s.n_write ptr cptr < 0) :
    write_period S dev channels (fuel + 1) ptr cptr init s =
      match xrun_recovery S dev fuel (call_writei dev s ptr cptr).2
          (dev.err s.n_write ptr cptr) with
      | (none, s2) => (Status.running, s2)
      | (some e, s2) => if e < 0 then (Status.exit, s2) else (Status.next true, s2) := by
  simp only [write_period, gt_iff_lt, hc, if_true, call_writei, hw]

/-- One round of `while (cptr > 0)` whose write takes a part of the frames and
whose readiness block says go on: the loop goes round with the rest. -/
theorem write_period_partial (S : Sys) (dev : Device) (channels fuel : Nat) (ptr cptr : Int)
    (init init2 : Bool) (s s3 : Session) (hc : 0 < cptr)
    (hw0 : 0 ≤ dev.err s.n_write ptr cptr) (hw1 : dev.err s.n_write ptr cptr ≠ cptr)
    (hpoll : poll_block S dev fuel
      (if (call_state dev (call_writei dev s ptr cptr).2).1 = snd_pcm_state_t.RUNNING
        then false else init)
      (call_state dev (call_writei dev s ptr cptr).2).2 = (Status.next init2, s3)) :
    write_period S dev channels (fuel + 1) ptr cptr init s =
      write_period S dev channels fuel
        (ptr + 2 * ((dev.err s.n_write ptr cptr * (channels : Int)) % 2 ^ 32))
        (cptr - dev.err s.n_write ptr cptr) init2 s3 := by
  have h1 : ¬ (dev.err s.n_write ptr cptr < 0) := not_lt.mpr hw0
  have h2 : ¬ (cptr - dev.err s.n_write ptr cptr = 0) := by
    intro h; exact hw1 (by linarith)
  have hcw : (call_writei dev s ptr cptr).1 = dev.err s.n_write ptr cptr := rfl
  simp only [write_period, gt_iff_lt, hc, if_true, hcw, h1, h2, if_false]
  rw [hpoll]

/-- One round of `while (cptr > 0)` whose write takes all the frames left. -/
theorem write_period_complete (S : Sys) (dev : Device) (channels fuel : Nat) (ptr cptr : Int)
    (init : Bool) (s : Session) (hc : 0 < cptr)
    (hw : dev.err s.n_write ptr cptr = cptr) :
    write_period S dev channels (fuel + 1) ptr cptr init s =
      (Status.next
        (if (call_state dev (call_writei dev s ptr cptr).2).1 = snd_pcm_state_t.RUNNING
          then false else init),
       (call_state dev (call_writei dev s ptr cptr).2).2) := by
  have h1 : ¬ (dev.err s.n_write ptr cptr < 0) := by rw [hw]; exact not_lt.mpr hc.le
  have hcw : (call_writei dev s ptr cptr).1 = dev.err s.n_write ptr cptr := rfl
  simp only [write_period, gt_iff_lt, hc, if_true, hcw, h1, if_false]
  simp [hw]

/-- The readiness block when the wait says ready. -/
theorem poll_block_ready (S : Sys) (dev : Device) (fuel : Nat) (init : Bool) (s s1 : Session)
    (e : Int) (hwait : wait_for_poll S dev fuel s = (some e, s1)) (he : 0 ≤ e) :
    poll_block S dev fuel init s = (Status.next init, s1) := by
  simp only [poll_block, hwait, not_lt.mpr he, if_false]

/-- The readiness block when the wait fails and the device is neither in `XRUN`
nor in `SUSPENDED`: the function returns the code of the wait. -/
theorem poll_block_fatal (S : Sys) (dev : Device) (fuel : Nat) (init : Bool) (s s1 : Session)
    (e : Int) (hwait : wait_for_poll S dev fuel s = (some e, s1)) (he : e < 0)
    (hx : dev.state s1.n_state ≠ snd_pcm_state_t.XRUN)
    (hs : dev.state (s1.n_state + 1) ≠ snd_pcm_state_t.SUSPENDED) :
    poll_block S dev fuel init s =
      (Status.ret e, (call_state dev (call_state dev s1).2).2) := by
  simp [poll_block, hwait, he, state_is_xrun_or_suspended, call_state, hx, hs]

section TransferLemmas

variable {α : Type} [LinearOrderedField α] [FloorRing α]

/-- An accepted layout makes `generate_sine` return. -/
theorem generate_sine_of_prepare (L : Libm α) (G : Globals α)
    (areas : List snd_pcm_channel_area_t) (offset : Nat) (count : Int) (phase : α) (b : Buffer)
    (ps : List (Int × Int)) (h : prepare_areas offset areas = some ps) :
    generate_sine L G areas offset count phase b = some (fill_loop L G count.toNat ps phase b) := by
  simp [generate_sine, h]

/-- One round of `while (1)`: the entry (the readiness block unless `init`), the
period generated, and then what the loop over the writes says. -/
theorem transfer_loop_round (S : Sys) (dev : Device) (L : Libm α) (G : Globals α)
    (areas : List snd_pcm_channel_area_t) (fuel : Nat) (init init1 : Bool) (phase : α)
    (b : Buffer) (s s1 : Session) (g : α × Buffer)
    (hentry : (if init then (Status.next init, s) else poll_block S dev fuel init s) =
      (Status.next init1, s1))
    (hgen : generate_sine L G areas 0 (wrap_int G.period_size) phase b = some g) :
    transfer_loop S dev L G areas (fuel + 1) init phase b s =
      match write_period S dev areas.length fuel 0 (wrap_int G.period_size) init1
          { s1 with trace := s1.trace ++ [Call.generate_sine (wrap_int G.period_size)] } with
      | (Status.next init2, s3) => transfer_loop S dev L G areas fuel init2 g.1 g.2 s3
      | other => other := by
  simp only [transfer_loop]
  rw [hentry]
  simp only [hgen]

/-- One round of `while (1)` whose entry does not say go on ends the loop. -/
theorem transfer_loop_entry_ret (S : Sys) (dev : Device) (L : Libm α) (G : Globals α)
    (areas : List snd_pcm_channel_area_t) (fuel : Nat) (phase : α)
    (b : Buffer) (s s1 : Session) (e : Int)
    (hentry : poll_block S dev fuel false s = (Status.ret e, s1)) :
    transfer_loop S dev L G areas (fuel + 1) false phase b s = (Status.ret e, s1) := by
  simp only [transfer_loop, Bool.false_eq_true, if_false]
  rw [hentry]

end TransferLemmas

/-- One round of `while (cptr > 0)` whose write fails and whose recovery returns 0:
the loop is left with `init = 1`. -/
theorem write_period_recovered (S : Sys) (dev : Device) (channels fuel : Nat) (ptr cptr : Int)
    (init : Bool) (s s2 : Session) (hc : 0 < cptr) (hw : dev.err s.n_write ptr cptr < 0)
    (hrec : xrun_recovery S dev fuel (call_writei dev s ptr cptr).2
      (dev.err s.n_write ptr cptr) = (some 0, s2)) :
    write_period S dev channels (fuel + 1) ptr cptr init s = (Status.next true, s2) := by
  rw [write_period_error S dev channels fuel ptr cptr init s hc hw, hrec]
  simp

/-- One round of `while (cptr > 0)` whose write fails and whose recovery returns a
negative code: the process exits. -/
theorem write_period_fatal (S : Sys) (dev : Device) (channels fuel : Nat) (ptr cptr : Int)
    (init : Bool) (s s2 : Session) (e : Int) (hc : 0 < cptr)
    (hw : dev.err s.n_write ptr cptr < 0) (he : e < 0)
    (hrec : xrun_recovery S dev fuel (call_writei dev s ptr cptr).2
      (dev.err s.n_write ptr cptr) = (some e, s2)) :
    write_period S dev channels (fuel + 1) ptr cptr init s = (Status.exit, s2) := by
  rw [write_period_error S dev channels fuel ptr cptr init s hc hw, hrec]
  simp [he]

/-- One round of `while (cptr > 0)` whose write takes a part of the frames and
whose readiness block ends the function: the loop hands that on. -/
theorem write_period_poll_ret (S : Sys) (dev : Device) (channels fuel : Nat) (ptr cptr : Int)
    (init : Bool) (s s3 : Session) (e : Int) (hc : 0 < cptr)
    (hw0 : 0 ≤ dev.err s.n_write ptr cptr) (hw1 : dev.err s.n_write ptr cptr ≠ cptr)
    (hpoll : poll_block S dev fuel
      (if (call_state dev (call_writei dev s ptr cptr).2).1 = snd_pcm_state_t.RUNNING
        then false else init)
      (call_state dev (call_writei dev s ptr cptr).2).2 = (Status.ret e, s3)) :
    write_period S dev channels (fuel + 1) ptr cptr init s = (Status.ret e, s3) := by
  have h1 : ¬ (dev.err s.n_write ptr cptr < 0) := not_lt.mpr hw0
  have h2 : ¬ (cptr - dev.err s.n_write ptr cptr = 0) := by
    intro h; exact hw1 (by linarith)
  have hcw : (call_writei dev s ptr cptr).1 = dev.err s.n_write ptr cptr := rfl
  simp only [write_period, gt_iff_lt, hc, if_true, hcw, h1, h2, if_false]
  rw [hpoll]

section TransferLemmas2

variable {α : Type} [LinearOrderedField α] [FloorRing α]

/-- A round of `while (1)` entered in the first-write phase on an accepted layout. -/
theorem transfer_loop_first (S : Sys) (dev : Device) (L : Libm α) (G : Globals α)
    (areas : List snd_pcm_channel_area_t) (ps : List (Int × Int)) (fuel : Nat) (phase : α)
    (b : Buffer) (s : Session) (hacc : prepare_areas 0 areas = some ps) :
    transfer_loop S dev L G areas (fuel + 1) true phase b s =
      match write_period S dev areas.length fuel 0 (wrap_int G.period_size) true
          { s with trace := s.trace ++ [Call.generate_sine (wrap_int G.period_size)] } with
      | (Status.next init2, s3) =>
        transfer_loop S dev L G areas fuel init2
          (fill_loop L G (wrap_int G.period_size).toNat ps phase b).1
          (fill_loop L G (wrap_int G.period_size).toNat ps phase b).2 s3
      | other => other :=
  transfer_loop_round S dev L G areas fuel true true phase b s s _ (by simp)
    (generate_sine_of_prepare L G areas 0 (wrap_int G.period_size) phase b ps hacc)

end TransferLemmas2

/-! ## Theorems: how the calls of a session grow -/

theorem quiet_ext_refl (s : Session) : quiet_ext s s := ⟨[], by simp, by simp⟩

theorem quiet_ext_trans {s t u : Session} (h1 : quiet_ext s t) (h2 : quiet_ext t u) :
    quiet_ext s u := by
  obtain ⟨e1, h1, q1⟩ := h1
  obtain ⟨e2, h2, q2⟩ := h2
  refine ⟨e1 ++ e2, by rw [h2, h1, List.append_assoc], ?_⟩
  intro c hc
  rcases List.mem_append.mp hc with h | h
  · exact q1 c h
  · exact q2 c h

theorem quiet_ext_prepare (dev : Device) (s : Session) : quiet_ext s (call_prepare dev s).2 :=
  ⟨[Call.prepare (dev.prepare s.n_prepare)], rfl, by simp [Call.quiet]⟩

theorem quiet_ext_resume (dev : Device) (s : Session) : quiet_ext s (call_resume dev s).2 :=
  ⟨[Call.resume (dev.resume s.n_resume)], rfl, by simp [Call.quiet]⟩

theorem quiet_ext_sleep (s : Session) : quiet_ext s (call_sleep s) :=
  ⟨[Call.sleep], rfl, by simp [Call.quiet]⟩

theorem quiet_ext_state (dev : Device) (s : Session) : quiet_ext s (call_state dev s).2 :=
  ⟨[Call.state (dev.state s.n_state)], rfl, by simp [Call.quiet]⟩

theorem quiet_ext_poll (dev : Device) (s : Session) : quiet_ext s (call_poll dev s).2 :=
  ⟨[Call.poll (dev.revents s.n_poll)], rfl, by simp [Call.quiet]⟩

/-- The resume loop makes quiet calls only. -/
theorem quiet_ext_resume_loop (S : Sys) (dev : Device) (fuel : Nat) (s : Session) :
    quiet_ext s (resume_loop S dev fuel s).2 := by
  induction fuel generalizing s with
  | zero => exact quiet_ext_refl s
  | succ f ih =>
    simp only [resume_loop]
    split_ifs
    · exact quiet_ext_trans (quiet_ext_trans (quiet_ext_resume dev s) (quiet_ext_sleep _)) (ih _)
    · exact quiet_ext_resume dev s

/-- The recovery makes quiet calls only. -/
theorem quiet_ext_xrun_recovery (S : Sys) (dev : Device) (fuel : Nat) (s : Session) (err : Int) :
    quiet_ext s (xrun_recovery S dev fuel s err).2 := by
  unfold xrun_recovery
  split_ifs
  · exact quiet_ext_prepare dev s
  · have h := quiet_ext_resume_loop S dev fuel s
    rcases hr : resume_loop S dev fuel s with ⟨_ | e, s1⟩
    · rw [hr] at h; exact h
    · rw [hr] at h
      simp only
      split_ifs
      · exact quiet_ext_trans h (quiet_ext_prepare dev s1)
      · exact h
  · exact quiet_ext_refl s

/-- The readiness wait makes quiet calls only. -/
theorem quiet_ext_wait_for_poll (S : Sys) (dev : Device) (fuel : Nat) (s : Session) :
    quiet_ext s (wait_for_poll S dev fuel s).2 := by
  induction fuel generalizing s with
  | zero => exact quiet_ext_refl s
  | succ f ih =>
    simp only [wait_for_poll]
    split_ifs
    · exact quiet_ext_poll dev s
    · exact quiet_ext_poll dev s
    · exact quiet_ext_trans (quiet_ext_poll dev s) (ih _)

/-- The test of the state makes quiet calls only. -/
theorem quiet_ext_state_test (dev : Device) (s : Session) :
    quiet_ext s (state_is_xrun_or_suspended dev s).2 := by
  unfold state_is_xrun_or_suspended
  simp only
  split_ifs
  · exact quiet_ext_state dev s
  · exact quiet_ext_trans (quiet_ext_state dev s) (quiet_ext_state dev _)

/-- The readiness block makes quiet calls only. -/
theorem quiet_ext_poll_block (S : Sys) (dev : Device) (fuel : Nat) (init : Bool) (s : Session) :
    quiet_ext s (poll_block S dev fuel init s).2 := by
  have hw := quiet_ext_wait_for_poll S dev fuel s
  unfold poll_block
  rcases hr : wait_for_poll S dev fuel s with ⟨_ | e, s1⟩
  · rw [hr] at hw; exact hw
  · rw [hr] at hw
    simp only
    by_cases h1 : e < 0
    · simp only [h1, if_true]
      by_cases h2 : (state_is_xrun_or_suspended dev s1).1 = true
      · simp only [h2, if_true]
        have h3 := quiet_ext_trans hw (quiet_ext_trans (quiet_ext_state_test dev s1)
          (quiet_ext_state dev _))
        generalize (if (call_state dev (state_is_xrun_or_suspended dev s1).2).1 =
          snd_pcm_state_t.XRUN then -S.EPIPE else -S.ESTRPIPE) = err1
        have h4 := quiet_ext_xrun_recovery S dev fuel
          (call_state dev (state_is_xrun_or_suspended dev s1).2).2 err1
        rcases hx : xrun_recovery S dev fuel
          (call_state dev (state_is_xrun_or_suspended dev s1).2).2 err1 with ⟨_ | e2, s2⟩
        · rw [hx] at h4; exact quiet_ext_trans h3 h4
        · rw [hx] at h4
          simp only
          by_cases h5 : e2 < 0
          · simp only [h5, if_true]; exact quiet_ext_trans h3 h4
          · simp only [h5, if_false]; exact quiet_ext_trans h3 h4
      · simp only [h2, if_false, Bool.false_eq_true]
        exact quiet_ext_trans hw (quiet_ext_state_test dev s1)
    · simp only [h1, if_false]
      exact hw

theorem trace_ext_refl (s : Session) : trace_ext s s := ⟨[], by simp⟩

theorem trace_ext_trans {s t u : Session} (h1 : trace_ext s t) (h2 : trace_ext t u) :
    trace_ext s u := by
  obtain ⟨e1, h1⟩ := h1
  obtain ⟨e2, h2⟩ := h2
  exact ⟨e1 ++ e2, by rw [h2, h1, List.append_assoc]⟩

theorem trace_ext_of_quiet {s t : Session} (h : quiet_ext s t) : trace_ext s t := by
  obtain ⟨e, h, _⟩ := h
  exact ⟨e, h⟩

theorem trace_ext_writei (dev : Device) (s : Session) (ptr cptr : Int) :
    trace_ext s (call_writei dev s ptr cptr).2 :=
  ⟨[Call.writei ptr cptr (dev.err s.n_write ptr cptr)], rfl⟩

/-- The session of a recovery, whatever the recovery says. -/
theorem recovery_session (r : Option Int × Session) :
    (match r with
      | (none, s2) => (Status.running, s2)
      | (some e, s2) => if e < 0 then (Status.exit, s2) else (Status.next true, s2)).2 = r.2 := by
  rcases r with ⟨_ | e, s2⟩
  · rfl
  · simp only; split_ifs <;> rfl

/-- The loop over the writes only adds calls, and a round with frames to write
starts with the write. -/
theorem write_period_trace_ext (S : Sys) (dev : Device) (channels : Nat) (fuel : Nat)
    (ptr cptr : Int) (init : Bool) (s : Session) :
    trace_ext s (write_period S dev channels fuel ptr cptr init s).2 ∧
      (0 < cptr → fuel ≠ 0 →
        trace_ext (call_writei dev s ptr cptr).2
          (write_period S dev channels fuel ptr cptr init s).2) := by
  induction fuel generalizing ptr cptr init s with
  | zero => exact ⟨trace_ext_refl s, fun _ h => absurd rfl h⟩
  | succ f ih =>
    by_cases hc : cptr > 0
    swap
    · refine ⟨?_, fun h => absurd h hc⟩
      simp only [write_period, hc, if_false]
      exact trace_ext_refl s
    have key : trace_ext (call_writei dev s ptr cptr).2
        (write_period S dev channels (f + 1) ptr cptr init s).2 := by
      by_cases hw : dev.err s.n_write ptr cptr < 0
      · rw [write_period_error S dev channels f ptr cptr init s hc hw, recovery_session]
        exact trace_ext_of_quiet (quiet_ext_xrun_recovery S dev f _ _)
      · by_cases hall : dev.err s.n_write ptr cptr = cptr
        · rw [write_period_complete S dev channels f ptr cptr init s hc hall]
          exact trace_ext_of_quiet (quiet_ext_state dev _)
        · have hcw : (call_writei dev s ptr cptr).1 = dev.err s.n_write ptr cptr := rfl
          have h2' : ¬ (cptr - dev.err s.n_write ptr cptr = 0) := by
            intro h; exact hall (by linarith)
          have hunf : write_period S dev channels (f + 1) ptr cptr init s =
              match poll_block S dev f
                (if (call_state dev (call_writei dev s ptr cptr).2).1 = snd_pcm_state_t.RUNNING
                  then false else init)
                (call_state dev (call_writei dev s ptr cptr).2).2 with
              | (Status.next init2, s3) =>
                write_period S dev channels f
                  (ptr + 2 * ((dev.err s.n_write ptr cptr * (channels : Int)) % 2 ^ 32))
                  (cptr - dev.err s.n_write ptr cptr) init2 s3
              | other => other := by
            simp only [write_period, gt_iff_lt, hc, if_true, hcw, hw, h2', if_false]
          have hpb := trace_ext_trans (trace_ext_of_quiet (quiet_ext_state dev
            (call_writei dev s ptr cptr).2))
            (trace_ext_of_quiet (quiet_ext_poll_block S dev f
              (if (call_state dev (call_writei dev s ptr cptr).2).1 = snd_pcm_state_t.RUNNING
                then false else init)
              (call_state dev (call_writei dev s ptr cptr).2).2))
          rw [hunf]
          rcases hp : poll_block S dev f
              (if (call_state dev (call_writei dev s ptr cptr).2).1 = snd_pcm_state_t.RUNNING
                then false else init)
              (call_state dev (call_writei dev s ptr cptr).2).2 with ⟨st3, s3⟩
          rw [hp] at hpb
          cases st3 with
          | next init2 => exact trace_ext_trans hpb (ih _ _ _ _).1
          | ret e => exact hpb
          | exit => exact hpb
          | running => exact hpb
    exact ⟨trace_ext_trans (trace_ext_writei dev s ptr cptr) key, fun _ _ => key⟩

section TraceTransfer

variable {α : Type} [LinearOrderedField α] [FloorRing α]

/-- The loop `while (1)` only adds calls. -/
theorem transfer_loop_trace_ext (S : Sys) (dev : Device) (L : Libm α) (G : Globals α)
    (areas : List snd_pcm_channel_area_t) (fuel : Nat) (init : Bool) (phase : α) (b : Buffer)
    (s : Session) : trace_ext s (transfer_loop S dev L G areas fuel init phase b s).2 := by
  induction fuel generalizing init phase b s with
  | zero => exact trace_ext_refl s
  | succ f ih =>
    have hentry : trace_ext s
        (if init then (Status.next init, s) else poll_block S dev f init s).2 := by
      split_ifs
      · exact trace_ext_refl s
      · exact trace_ext_of_quiet (quiet_ext_poll_block S dev f init s)
    simp only [transfer_loop]
    rcases he : (if init then (Status.next init, s) else poll_block S dev f init s)
      with ⟨st1, s1⟩
    rw [he] at hentry
    cases st1 with
    | next init1 =>
      simp only
      have hgenev : trace_ext s1
          ({ s1 with trace := s1.trace ++ [Call.generate_sine (wrap_int G.period_size)] } :
            Session) := ⟨_, rfl⟩
      rcases hg : generate_sine L G areas 0 (wrap_int G.period_size) phase b with _ | g
      · exact trace_ext_trans hentry hgenev
      · simp only
        have hwp := (write_period_trace_ext S dev areas.length f 0 (wrap_int G.period_size)
          init1 { s1 with trace := s1.trace ++ [Call.generate_sine (wrap_int G.period_size)] }).1
        rcases hw : write_period S dev areas.length f 0 (wrap_int G.period_size) init1
          { s1 with trace := s1.trace ++ [Call.generate_sine (wrap_int G.period_size)] }
          with ⟨st3, s3⟩
        rw [hw] at hwp
        have h3 := trace_ext_trans hentry (trace_ext_trans hgenev hwp)
        cases st3 with
        | next init2 => exact trace_ext_trans h3 (ih _ _ _ _)
        | ret e => exact h3
        | exit => exact h3
        | running => exact h3
    | ret e => exact hentry
    | exit => exact hentry
    | running => exact hentry

/-- A round of `while (1)` entered in the first-write phase on an accepted layout,
with a period of at least one frame, starts with the call of `generate_sine` and
the write of the whole period at `samples`. -/
theorem transfer_loop_first_calls (S : Sys) (dev : Device) (L : Libm α) (G : Globals α)
    (areas : List snd_pcm_channel_area_t) (ps : List (Int × Int)) (fuel : Nat) (phase : α)
    (b : Buffer) (s : Session) (hacc : prepare_areas 0 areas = some ps)
    (hP : 0 < wrap_int G.period_size) :
    ∃ rest, (transfer_loop S dev L G areas (fuel + 2) true phase b s).2.trace =
      s.trace ++ (Call.generate_sine (wrap_int G.period_size) ::
        Call.writei 0 (wrap_int G.period_size)
          (dev.err s.n_write 0 (wrap_int G.period_size)) :: rest) := by
  rw [transfer_loop_first S dev L G areas ps (fuel + 1) phase b s hacc]
  have hwp := (write_period_trace_ext S dev areas.length (fuel + 1) 0 (wrap_int G.period_size)
    true { s with trace := s.trace ++ [Call.generate_sine (wrap_int G.period_size)] }).2 hP
    (by omega)
  rcases hw : write_period S dev areas.length (fuel + 1) 0 (wrap_int G.period_size) true
    { s with trace := s.trace ++ [Call.generate_sine (wrap_int G.period_size)] } with ⟨st3, s3⟩
  rw [hw] at hwp
  have hfin : ∀ t : Session, trace_ext s3 t → ∃ rest, t.trace =
      s.trace ++ (Call.generate_sine (wrap_int G.period_size) ::
        Call.writei 0 (wrap_int G.period_size)
          (dev.err s.n_write 0 (wrap_int G.period_size)) :: rest) := by
    intro t ht
    obtain ⟨e, he⟩ := trace_ext_trans hwp ht
    exact ⟨e, by rw [he]; simp [call_writei]⟩
  cases st3 with
  | next init2 => exact hfin _ (transfer_loop_trace_ext S dev L G areas _ _ _ _ _)
  | ret e => exact hfin _ (trace_ext_refl _)
  | exit => exact hfin _ (trace_ext_refl _)
  | running => exact hfin _ (trace_ext_refl _)

end TraceTransfer

/-! ## Theorems: the claims on recovery and on the readiness wait -/

/-- C4 (as amended): when `xrun_recovery` is called with `-ESTRPIPE` and `resume`
answers `-EAGAIN` exactly `n` times and then 0, it makes exactly `n` one-second
waits, one after each "try again", does not call `prepare`, and returns 0. -/
theorem xrun_recovery_suspended (S : Sys) (dev : Device) (n fuel : Nat) (s : Session)
    (hne : S.EPIPE ≠ S.ESTRPIPE) (hag : S.EAGAIN ≠ 0) (hfuel : n < fuel)
    (hagain : ∀ i, i < n → dev.resume (s.n_resume + i) = -S.EAGAIN)
    (hok : dev.resume (s.n_resume + n) = 0) :
    xrun_recovery S dev fuel s (-S.ESTRPIPE) =
        (some 0, { s with n_resume := s.n_resume + (n + 1),
                          trace := s.trace ++ (backoff_calls S n ++ [Call.resume 0]) }) ∧
      List.count Call.sleep (backoff_calls S n ++ [Call.resume 0]) = n ∧
      ∀ r, Call.prepare r ∉ backoff_calls S n ++ [Call.resume 0] := by
  have hloop := resume_loop_spec S dev n fuel s 0 hfuel hagain hok
    (by intro h; exact hag (by linarith))
  refine ⟨?_, ?_, ?_⟩
  · rw [xrun_recovery_estrpipe S dev fuel s _ 0 hne hloop]
    simp
  · simp [count_sleep_backoff_calls]
  · intro r
    simp [prepare_not_mem_backoff_calls]

/-- Witness of `xrun_recovery_suspended`: two rounds of "try again" on Linux. -/
theorem xrun_recovery_suspended_witness :
    xrun_recovery linux dev_resume_twice 3 Session.start (-linux.ESTRPIPE) =
        (some 0, { Session.start with
          n_resume := Session.start.n_resume + (2 + 1),
          trace := Session.start.trace ++ (backoff_calls linux 2 ++ [Call.resume 0]) }) ∧
      List.count Call.sleep (backoff_calls linux 2 ++ [Call.resume 0]) = 2 ∧
      ∀ r, Call.prepare r ∉ backoff_calls linux 2 ++ [Call.resume 0] :=
  xrun_recovery_suspended linux dev_resume_twice 2 3 Session.start (by decide) (by decide)
    (by decide) (by decide) (by decide)

/-- C4 as stated fails: with `resume` answering `-EAGAIN` twice and then 0, the
recovery returns 0 after two waits without any call of `prepare`. -/
theorem xrun_recovery_suspended_counterexample :
    xrun_recovery linux dev_resume_twice 3 Session.start (-linux.ESTRPIPE) =
        (some 0, ⟨0, 3, 0, 0, 0,
          [Call.resume (-11), Call.sleep, Call.resume (-11), Call.sleep, Call.resume 0]⟩) ∧
      ∀ r, Call.prepare r ∉
        (xrun_recovery linux dev_resume_twice 3 Session.start (-linux.ESTRPIPE)).2.trace := by
  have h : xrun_recovery linux dev_resume_twice 3 Session.start (-linux.ESTRPIPE) =
      (some 0, ⟨0, 3, 0, 0, 0,
        [Call.resume (-11), Call.sleep, Call.resume (-11), Call.sleep, Call.resume 0]⟩) := by
    decide
  refine ⟨h, ?_⟩
  intro r
  rw [h]
  simp

/-- C5 (as amended): when `xrun_recovery` is called with `-ESTRPIPE` and `resume`,
after `n` answers `-EAGAIN`, fails with another negative code, `xrun_recovery` makes
the `n` waits, calls `prepare` once and, `prepare` succeeding, returns 0; a write
that reports the suspend then leaves the loop over the writes with `init = 1`, and
`write_and_poll_loop` does not end the process: its next calls are `generate_sine`
for the next period and the write of that period, with no wait in between. -/
theorem xrun_recovery_resume_fails {α : Type} [LinearOrderedField α] [FloorRing α]
    (S : Sys) (dev : Device) (L : Libm α) (G : Globals α)
    (areas : List snd_pcm_channel_area_t) (ps : List (Int × Int)) (n fuel : Nat)
    (s : Session) (e : Int) (phase : α) (b : Buffer)
    (hne : S.EPIPE ≠ S.ESTRPIPE) (hfuel : n < fuel)
    (hagain : ∀ i, i < n → dev.resume (s.n_resume + i) = -S.EAGAIN)
    (hfail : dev.resume (s.n_resume + n) = e) (he : e < 0) (hea : e ≠ -S.EAGAIN)
    (_hprep : 0 ≤ dev.prepare s.n_prepare) :
    xrun_recovery S dev fuel s (-S.ESTRPIPE) =
        (some 0, { s with
          n_resume := s.n_resume + (n + 1), n_prepare := s.n_prepare + 1,
          trace := s.trace ++ (backoff_calls S n ++
            [Call.resume e, Call.prepare (dev.prepare s.n_prepare)]) }) ∧
      (∀ (channels : Nat) (ptr cptr : Int) (init : Bool), 0 < S.ESTRPIPE → 0 < cptr →
        dev.err s.n_write ptr cptr = -S.ESTRPIPE →
        write_period S dev channels (fuel + 1) ptr cptr init s =
          (Status.next true, { s with
            n_write := s.n_write + 1, n_resume := s.n_resume + (n + 1),
            n_prepare := s.n_prepare + 1,
            trace := s.trace ++ (Call.writei ptr cptr (-S.ESTRPIPE) :: (backoff_calls S n ++
              [Call.resume e, Call.prepare (dev.prepare s.n_prepare)])) })) ∧
      (0 < S.ESTRPIPE → prepare_areas 0 areas = some ps → 0 < wrap_int G.period_size →
        dev.err s.n_write 0 (wrap_int G.period_size) = -S.ESTRPIPE →
        transfer_loop S dev L G areas (fuel + 2) true phase b s =
          transfer_loop S dev L G areas (fuel + 1) true
            (fill_loop L G (wrap_int G.period_size).toNat ps phase b).1
            (fill_loop L G (wrap_int G.period_size).toNat ps phase b).2
            { s with
              n_write := s.n_write + 1, n_resume := s.n_resume + (n + 1),
              n_prepare := s.n_prepare + 1,
              trace := s.trace ++ (Call.generate_sine (wrap_int G.period_size) ::
                Call.writei 0 (wrap_int G.period_size) (-S.ESTRPIPE) :: (backoff_calls S n ++
                [Call.resume e, Call.prepare (dev.prepare s.n_prepare)])) } ∧
        ∃ rest, (transfer_loop S dev L G areas (fuel + 2) true phase b s).2.trace =
          s.trace ++ (Call.generate_sine (wrap_int G.period_size) ::
            Call.writei 0 (wrap_int G.period_size) (-S.ESTRPIPE) :: (backoff_calls S n ++
              (Call.resume e :: Call.prepare (dev.prepare s.n_prepare) ::
                Call.generate_sine (wrap_int G.period_size) ::
                Call.writei 0 (wrap_int G.period_size)
                  (dev.err (s.n_write + 1) 0 (wrap_int G.period_size)) :: rest)))) := by
  have key : ∀ t : Session, t.n_resume = s.n_resume → t.n_prepare = s.n_prepare →
      xrun_recovery S dev fuel t (-S.ESTRPIPE) =
        (some 0, { t with
          n_resume := t.n_resume + (n + 1), n_prepare := t.n_prepare + 1,
          trace := t.trace ++ (backoff_calls S n ++
            [Call.resume e, Call.prepare (dev.prepare s.n_prepare)]) }) := by
    intro t h1 h2
    have hloop := resume_loop_spec S dev n fuel t e hfuel (by rw [h1]; exact hagain)
      (by rw [h1]; exact hfail) hea
    rw [xrun_recovery_estrpipe S dev fuel t _ e hne hloop]
    simp [he, call_prepare, h2]
  refine ⟨key s rfl rfl, ?_, ?_⟩
  · intro channels ptr cptr init hpos hc hw
    have hneg : -S.ESTRPIPE < 0 := by linarith
    rw [write_period_recovered S dev channels fuel ptr cptr init s _ hc (by rw [hw]; exact hneg)
      (by rw [hw]; exact key _ rfl rfl)]
    simp [call_writei, hw]
  · intro hpos hacc hP hw0
    have hneg : -S.ESTRPIPE < 0 := by linarith
    have heq : transfer_loop S dev L G areas (fuel + 2) true phase b s =
        transfer_loop S dev L G areas (fuel + 1) true
          (fill_loop L G (wrap_int G.period_size).toNat ps phase b).1
          (fill_loop L G (wrap_int G.period_size).toNat ps phase b).2
          { s with
            n_write := s.n_write + 1, n_resume := s.n_resume + (n + 1),
            n_prepare := s.n_prepare + 1,
            trace := s.trace ++ (Call.generate_sine (wrap_int G.period_size) ::
              Call.writei 0 (wrap_int G.period_size) (-S.ESTRPIPE) :: (backoff_calls S n ++
              [Call.resume e, Call.prepare (dev.prepare s.n_prepare)])) } := by
      rw [transfer_loop_first S dev L G areas ps (fuel + 1) phase b s hacc,
        write_period_recovered S dev areas.length fuel 0 (wrap_int G.period_size) true _ _ hP
          (by simpa [hw0] using hneg)
          (by
            show xrun_recovery S dev fuel _ (dev.err s.n_write 0 (wrap_int G.period_size)) = _
            rw [hw0]; exact key _ rfl rfl)]
      simp [call_writei, hw0]
    refine ⟨heq, ?_⟩
    obtain ⟨f, rfl⟩ : ∃ f, fuel = f + 1 := ⟨fuel - 1, by omega⟩
    rw [heq]
    obtain ⟨rest, hrest⟩ := transfer_loop_first_calls S dev L G areas ps f
      (fill_loop L G (wrap_int G.period_size).toNat ps phase b).1
      (fill_loop L G (wrap_int G.period_size).toNat ps phase b).2
      { s with
        n_write := s.n_write + 1, n_resume := s.n_resume + (n + 1),
        n_prepare := s.n_prepare + 1,
        trace := s.trace ++ (Call.generate_sine (wrap_int G.period_size) ::
          Call.writei 0 (wrap_int G.period_size) (-S.ESTRPIPE) :: (backoff_calls S n ++
          [Call.resume e, Call.prepare (dev.prepare s.n_prepare)])) } hacc hP
    exact ⟨rest, by rw [hrest]; simp⟩

/-- Witness of `xrun_recovery_resume_fails`: every write reports a suspend and
`resume` says "try again" once and then `-ENOSYS`, on Linux, with a period of 4
frames. -/
theorem xrun_recovery_resume_fails_witness :
    xrun_recovery linux dev_resume_fails 2 Session.start (-linux.ESTRPIPE) =
        (some 0, { Session.start with
          n_resume := Session.start.n_resume + (1 + 1),
          n_prepare := Session.start.n_prepare + 1,
          trace := Session.start.trace ++ (backoff_calls linux 1 ++
            [Call.resume (-38),
             Call.prepare (dev_resume_fails.prepare Session.start.n_prepare)]) }) ∧
      write_period linux dev_resume_fails 1 (2 + 1) 2 2 false Session.start =
        (Status.next true, { Session.start with
          n_write := Session.start.n_write + 1, n_resume := Session.start.n_resume + (1 + 1),
          n_prepare := Session.start.n_prepare + 1,
          trace := Session.start.trace ++ (Call.writei 2 2 (-linux.ESTRPIPE) ::
            (backoff_calls linux 1 ++
            [Call.resume (-38),
             Call.prepare (dev_resume_fails.prepare Session.start.n_prepare)])) }) ∧
      ∃ rest, (transfer_loop linux dev_resume_fails libm_q globals_q [⟨0, 0, 16⟩] (2 + 2) true 0
          Buffer.zero Session.start).2.trace =
        Session.start.trace ++ (Call.generate_sine (wrap_int globals_q.period_size) ::
          Call.writei 0 (wrap_int globals_q.period_size) (-linux.ESTRPIPE) ::
            (backoff_calls linux 1 ++
              (Call.resume (-38) ::
                Call.prepare (dev_resume_fails.prepare Session.start.n_prepare) ::
                Call.generate_sine (wrap_int globals_q.period_size) ::
                Call.writei 0 (wrap_int globals_q.period_size)
                  (dev_resume_fails.err (Session.start.n_write + 1) 0
                    (wrap_int globals_q.period_size)) :: rest))) :=
  have h := xrun_recovery_resume_fails linux dev_resume_fails libm_q globals_q [⟨0, 0, 16⟩]
    [(0, 2)] 1 2 Session.start (-38) 0 Buffer.zero (by decide) (by decide) (by decide)
    (by decide) (by decide) (by decide) (by decide)
  ⟨h.1, h.2.1 1 2 2 false (by decide) (by decide) (by decide),
    (h.2.2 (by decide) (by decide) (by decide) (by decide)).2⟩

/-- C5 as stated fails: `resume` fails with `-ENOSYS` (after one "try again"), and
`xrun_recovery` returns 0, not a negative code. -/
theorem xrun_recovery_resume_fails_counterexample :
    dev_resume_fails.resume 1 = -38 ∧ (-38 : Int) < 0 ∧ (-38 : Int) ≠ -linux.EAGAIN ∧
      xrun_recovery linux dev_resume_fails 2 Session.start (-linux.ESTRPIPE) =
        (some 0, ⟨1, 2, 0, 0, 0,
          [Call.resume (-11), Call.sleep, Call.resume (-38), Call.prepare 0]⟩) := by
  decide

/-- C6: when `xrun_recovery` is called with `-EPIPE` and `prepare` succeeds, it calls
`prepare` exactly once, neither `resume` nor `sleep`, and returns 0; a write that
reports the underrun then leaves the loop over the writes with `init = 1`, and
`write_and_poll_loop` goes on in its first-write phase: its next calls are
`generate_sine` for the next period and the write of that period, with no wait in
between. -/
theorem xrun_recovery_underrun {α : Type} [LinearOrderedField α] [FloorRing α]
    (S : Sys) (dev : Device) (L : Libm α) (G : Globals α)
    (areas : List snd_pcm_channel_area_t) (ps : List (Int × Int)) (fuel : Nat)
    (s : Session) (phase : α) (b : Buffer)
    (_hprep : 0 ≤ dev.prepare s.n_prepare) :
    xrun_recovery S dev fuel s (-S.EPIPE) =
        (some 0, { s with
          n_prepare := s.n_prepare + 1,
          trace := s.trace ++ [Call.prepare (dev.prepare s.n_prepare)] }) ∧
      (∀ (channels : Nat) (ptr cptr : Int) (init : Bool), 0 < S.EPIPE → 0 < cptr →
        dev.err s.n_write ptr cptr = -S.EPIPE →
        write_period S dev channels (fuel + 1) ptr cptr init s =
          (Status.next true, { s with
            n_write := s.n_write + 1, n_prepare := s.n_prepare + 1,
            trace := s.trace ++
              [Call.writei ptr cptr (-S.EPIPE), Call.prepare (dev.prepare s.n_prepare)] })) ∧
      (0 < S.EPIPE → prepare_areas 0 areas = some ps → 0 < wrap_int G.period_size →
        dev.err s.n_write 0 (wrap_int G.period_size) = -S.EPIPE →
        transfer_loop S dev L G areas (fuel + 3) true phase b s =
          transfer_loop S dev L G areas (fuel + 2) true
            (fill_loop L G (wrap_int G.period_size).toNat ps phase b).1
            (fill_loop L G (wrap_int G.period_size).toNat ps phase b).2
            { s with
              n_write := s.n_write + 1, n_prepare := s.n_prepare + 1,
              trace := s.trace ++ [Call.generate_sine (wrap_int G.period_size),
                Call.writei 0 (wrap_int G.period_size) (-S.EPIPE),
                Call.prepare (dev.prepare s.n_prepare)] } ∧
        ∃ rest, (transfer_loop S dev L G areas (fuel + 3) true phase b s).2.trace =
          s.trace ++ (Call.generate_sine (wrap_int G.period_size) ::
            Call.writei 0 (wrap_int G.period_size) (-S.EPIPE) ::
            Call.prepare (dev.prepare s.n_prepare) ::
            Call.generate_sine (wrap_int G.period_size) ::
            Call.writei 0 (wrap_int G.period_size)
              (dev.err (s.n_write + 1) 0 (wrap_int G.period_size)) :: rest)) := by
  refine ⟨by rw [xrun_recovery_epipe]; rfl, ?_, ?_⟩
  · intro channels ptr cptr init hpos hc hw
    have hneg : -S.EPIPE < 0 := by linarith
    rw [write_period_recovered S dev channels fuel ptr cptr init s _ hc (by rw [hw]; exact hneg)
      (by rw [hw]; exact xrun_recovery_epipe S dev fuel _)]
    simp [call_writei, call_prepare, hw]
  · intro hpos hacc hP hw0
    have hneg : -S.EPIPE < 0 := by linarith
    have heq : transfer_loop S dev L G areas (fuel + 3) true phase b s =
        transfer_loop S dev L G areas (fuel + 2) true
          (fill_loop L G (wrap_int G.period_size).toNat ps phase b).1
          (fill_loop L G (wrap_int G.period_size).toNat ps phase b).2
          { s with
            n_write := s.n_write + 1, n_prepare := s.n_prepare + 1,
            trace := s.trace ++ [Call.generate_sine (wrap_int G.period_size),
              Call.writei 0 (wrap_int G.period_size) (-S.EPIPE),
              Call.prepare (dev.prepare s.n_prepare)] } := by
      rw [transfer_loop_first S dev L G areas ps (fuel + 2) phase b s hacc,
        write_period_recovered S dev areas.length (fuel + 1) 0 (wrap_int G.period_size) true
          _ _ hP (by simpa [hw0] using hneg)
          (by
            show xrun_recovery S dev (fuel + 1) _
              (dev.err s.n_write 0 (wrap_int G.period_size)) = _
            rw [hw0]; exact xrun_recovery_epipe S dev (fuel + 1) _)]
      simp [call_writei, call_prepare, hw0]
    refine ⟨heq, ?_⟩
    rw [heq]
    obtain ⟨rest, hrest⟩ := transfer_loop_first_calls S dev L G areas ps fuel
      (fill_loop L G (wrap_int G.period_size).toNat ps phase b).1
      (fill_loop L G (wrap_int G.period_size).toNat ps phase b).2
      { s with
        n_write := s.n_write + 1, n_prepare := s.n_prepare + 1,
        trace := s.trace ++ [Call.generate_sine (wrap_int G.period_size),
          Call.writei 0 (wrap_int G.period_size) (-S.EPIPE),
          Call.prepare (dev.prepare s.n_prepare)] } hacc hP
    exact ⟨rest, by rw [hrest]; simp⟩

/-- Witness of `xrun_recovery_underrun`: every write reports an underrun, on Linux,
with a period of 4 frames. -/
theorem xrun_recovery_underrun_witness :
    xrun_recovery linux dev_underrun 0 Session.start (-linux.EPIPE) =
        (some 0, { Session.start with
          n_prepare := Session.start.n_prepare + 1,
          trace := Session.start.trace ++
            [Call.prepare (dev_underrun.prepare Session.start.n_prepare)] }) ∧
      write_period linux dev_underrun 1 (0 + 1) 2 2 false Session.start =
        (Status.next true, { Session.start with
          n_write := Session.start.n_write + 1, n_prepare := Session.start.n_prepare + 1,
          trace := Session.start.trace ++
            [Call.writei 2 2 (-linux.EPIPE),
             Call.prepare (dev_underrun.prepare Session.start.n_prepare)] }) ∧
      ∃ rest, (transfer_loop linux dev_underrun libm_q globals_q [⟨0, 0, 16⟩] (0 + 3) true 0
          Buffer.zero Session.start).2.trace =
        Session.start.trace ++ (Call.generate_sine (wrap_int globals_q.period_size) ::
          Call.writei 0 (wrap_int globals_q.period_size) (-linux.EPIPE) ::
          Call.prepare (dev_underrun.prepare Session.start.n_prepare) ::
          Call.generate_sine (wrap_int globals_q.period_size) ::
          Call.writei 0 (wrap_int globals_q.period_size)
            (dev_underrun.err (Session.start.n_write + 1) 0
              (wrap_int globals_q.period_size)) :: rest) :=
  have h := xrun_recovery_underrun linux dev_underrun libm_q globals_q [⟨0, 0, 16⟩] [(0, 2)] 0
    Session.start 0 Buffer.zero (by decide)
  ⟨h.1, h.2.1 1 2 2 false (by decide) (by decide) (by decide),
    (h.2.2 (by decide) (by decide) (by decide) (by decide)).2⟩

/-- C7: a negative code other than `-EPIPE` and `-ESTRPIPE` is returned unchanged by
`xrun_recovery`, which calls nothing, and a write that fails with it makes the
process exit right after that write, in the loop over the writes and so in
`write_and_poll_loop`; likewise, when `wait_for_poll` fails while the device is
neither in `XRUN` nor in `SUSPENDED`, the readiness block returns the negative code
of the wait, and with it `write_and_poll_loop`, at the top of a round as well as
after a write that took a part of the frames. -/
theorem fatal_on_other_fault {α : Type} [LinearOrderedField α] [FloorRing α]
    (S : Sys) (dev : Device) (L : Libm α) (G : Globals α)
    (areas : List snd_pcm_channel_area_t) (ps : List (Int × Int)) (fuel : Nat)
    (phase : α) (b : Buffer) :
    (∀ (s : Session) (err : Int), err < 0 → err ≠ -S.EPIPE → err ≠ -S.ESTRPIPE →
      xrun_recovery S dev fuel s err = (some err, s) ∧
      (∀ (channels : Nat) (ptr cptr : Int) (init : Bool), 0 < cptr →
        dev.err s.n_write ptr cptr = err →
        write_period S dev channels (fuel + 1) ptr cptr init s =
          (Status.exit, { s with
            n_write := s.n_write + 1, trace := s.trace ++ [Call.writei ptr cptr err] })) ∧
      (prepare_areas 0 areas = some ps → 0 < wrap_int G.period_size →
        dev.err s.n_write 0 (wrap_int G.period_size) = err →
        transfer_loop S dev L G areas (fuel + 2) true phase b s =
          (Status.exit, { s with
            n_write := s.n_write + 1,
            trace := s.trace ++ [Call.generate_sine (wrap_int G.period_size),
              Call.writei 0 (wrap_int G.period_size) err] }))) ∧
    (∀ (q q1 : Session) (e : Int), wait_for_poll S dev fuel q = (some e, q1) → e < 0 →
      dev.state q1.n_state ≠ snd_pcm_state_t.XRUN →
      dev.state (q1.n_state + 1) ≠ snd_pcm_state_t.SUSPENDED →
      (∀ init : Bool, poll_block S dev fuel init q =
        (Status.ret e, { q1 with
          n_state := q1.n_state + 2,
          trace := q1.trace ++ [Call.state (dev.state q1.n_state),
            Call.state (dev.state (q1.n_state + 1))] })) ∧
      transfer_loop S dev L G areas (fuel + 1) false phase b q =
        (Status.ret e, { q1 with
          n_state := q1.n_state + 2,
          trace := q1.trace ++ [Call.state (dev.state q1.n_state),
            Call.state (dev.state (q1.n_state + 1))] }) ∧
      (∀ (channels : Nat) (w : Session) (p2 c2 : Int) (i2 : Bool), 0 < c2 →
        0 ≤ dev.err w.n_write p2 c2 → dev.err w.n_write p2 c2 ≠ c2 →
        (call_state dev (call_writei dev w p2 c2).2).2 = q →
        write_period S dev channels (fuel + 1) p2 c2 i2 w =
          (Status.ret e, { q1 with
            n_state := q1.n_state + 2,
            trace := q1.trace ++ [Call.state (dev.state q1.n_state),
              Call.state (dev.state (q1.n_state + 1))] }))) := by
  constructor
  · intro s err herr h1 h2
    refine ⟨xrun_recovery_other S dev fuel s err h1 h2, ?_, ?_⟩
    · intro channels ptr cptr init hc hw
      rw [write_period_fatal S dev channels fuel ptr cptr init s _ err hc
        (by rw [hw]; exact herr) herr
        (by rw [hw]; exact xrun_recovery_other S dev fuel _ err h1 h2)]
      simp [call_writei, hw]
    · intro hacc hP hw0
      rw [transfer_loop_first S dev L G areas ps (fuel + 1) phase b s hacc,
        write_period_fatal S dev areas.length fuel 0 (wrap_int G.period_size) true _ _ err hP
          (by simpa [hw0] using herr) herr
          (by
            show xrun_recovery S dev fuel _ (dev.err s.n_write 0 (wrap_int G.period_size)) = _
            rw [hw0]; exact xrun_recovery_other S dev fuel _ err h1 h2)]
      simp [call_writei, hw0]
  · intro q q1 e hwait he hx hs
    have hpb : ∀ i : Bool, poll_block S dev fuel i q =
        (Status.ret e, { q1 with
          n_state := q1.n_state + 2,
          trace := q1.trace ++ [Call.state (dev.state q1.n_state),
            Call.state (dev.state (q1.n_state + 1))] }) := by
      intro i
      rw [poll_block_fatal S dev fuel i q q1 e hwait he hx hs]
      simp [call_state]
    refine ⟨hpb, ?_, ?_⟩
    · exact transfer_loop_entry_ret S dev L G areas fuel phase b q _ e (hpb false)
    · intro channels w p2 c2 i2 hc2 hw20 hw21 hq
      exact write_period_poll_ret S dev channels fuel p2 c2 i2 w _ e hc2 hw20 hw21
        (by rw [hq]; exact hpb _)

/-- Witness of `fatal_on_other_fault`: the first write fails with `-EBADFD`, the
next one takes 2 of 4 frames, polls signal an error and the device is in the state
`SETUP`, on Linux. -/
theorem fatal_on_other_fault_witness :
    (xrun_recovery linux dev_broken 1 Session.start (-77) = (some (-77), Session.start) ∧
      write_period linux dev_broken 1 (1 + 1) 2 2 false Session.start =
        (Status.exit, { Session.start with
          n_write := Session.start.n_write + 1,
          trace := Session.start.trace ++ [Call.writei 2 2 (-77)] }) ∧
      transfer_loop linux dev_broken libm_q globals_q [⟨0, 0, 16⟩] (1 + 2) true 0
          Buffer.zero Session.start =
        (Status.exit, { Session.start with
          n_write := Session.start.n_write + 1,
          trace := Session.start.trace ++ [Call.generate_sine (wrap_int globals_q.period_size),
            Call.writei 0 (wrap_int globals_q.period_size) (-77)] })) ∧
    (poll_block linux dev_broken 1 false
          ⟨0, 0, 1, 0, 2, [Call.writei 0 4 2, Call.state (snd_pcm_state_t.other 1)]⟩ =
        (Status.ret (-5), ⟨0, 0, 3, 1, 2, [Call.writei 0 4 2,
          Call.state (snd_pcm_state_t.other 1), Call.poll 8,
          Call.state (snd_pcm_state_t.other 1), Call.state (snd_pcm_state_t.other 1)]⟩) ∧
      transfer_loop linux dev_broken libm_q globals_q [⟨0, 0, 16⟩] (1 + 1) false 0
          Buffer.zero
          ⟨0, 0, 1, 0, 2, [Call.writei 0 4 2, Call.state (snd_pcm_state_t.other 1)]⟩ =
        (Status.ret (-5), ⟨0, 0, 3, 1, 2, [Call.writei 0 4 2,
          Call.state (snd_pcm_state_t.other 1), Call.poll 8,
          Call.state (snd_pcm_state_t.other 1), Call.state (snd_pcm_state_t.other 1)]⟩) ∧
      write_period linux dev_broken 1 (1 + 1) 0 4 false ⟨0, 0, 0, 0, 1, []⟩ =
        (Status.ret (-5), ⟨0, 0, 3, 1, 2, [Call.writei 0 4 2,
          Call.state (snd_pcm_state_t.other 1), Call.poll 8,
          Call.state (snd_pcm_state_t.other 1), Call.state (snd_pcm_state_t.other 1)]⟩)) :=
  have h := fatal_on_other_fault linux dev_broken libm_q globals_q [⟨0, 0, 16⟩] [(0, 2)] 1
    0 Buffer.zero
  have h1 := h.1 Session.start (-77) (by decide) (by decide) (by decide)
  have h2 := h.2 ⟨0, 0, 1, 0, 2, [Call.writei 0 4 2, Call.state (snd_pcm_state_t.other 1)]⟩
    ⟨0, 0, 1, 1, 2, [Call.writei 0 4 2, Call.state (snd_pcm_state_t.other 1), Call.poll 8]⟩
    (-5) (by decide) (by decide) (by decide) (by decide)
  ⟨⟨h1.1, h1.2.1 1 2 2 false (by decide) (by decide),
      h1.2.2 (by decide) (by decide) (by decide)⟩,
    h2.1 false, h2.2.1,
    h2.2.2 1 ⟨0, 0, 0, 0, 1, []⟩ 0 4 false (by decide) (by decide) (by decide) (by decide)⟩

/-- C8: on a stream of event masks whose first `k` carry neither `POLLERR` nor
`POLLOUT` and whose next one carries at least one of them, `wait_for_poll` makes
exactly `k + 1` waits and returns `-EIO` when that mask carries `POLLERR` (also
together with `POLLOUT`) and 0 otherwise; with fewer than `k + 1` rounds it has not
returned. -/
theorem wait_for_poll_contract (S : Sys) (dev : Device) (k fuel fuel0 : Nat) (s : Session)
    (hfuel : k < fuel) (hshort : fuel0 ≤ k)
    (hspur : ∀ i, i < k → dev.revents (s.n_poll + i) &&& S.POLLERR = 0 ∧
      dev.revents (s.n_poll + i) &&& S.POLLOUT = 0)
    (hterm : dev.revents (s.n_poll + k) &&& S.POLLERR ≠ 0 ∨
      dev.revents (s.n_poll + k) &&& S.POLLOUT ≠ 0) :
    wait_for_poll S dev fuel s =
        (some (if dev.revents (s.n_poll + k) &&& S.POLLERR ≠ 0 then -S.EIO else 0),
         { s with n_poll := s.n_poll + (k + 1),
                  trace := s.trace ++
                    (List.range (k + 1)).map (fun i => Call.poll (dev.revents (s.n_poll + i))) }) ∧
      (wait_for_poll S dev fuel0 s).1 = none :=
  ⟨wait_for_poll_spec S dev k fuel s hfuel hspur hterm,
   wait_for_poll_spurious S dev fuel0 s (fun i hi => hspur i (by omega))⟩

/-- Witness of `wait_for_poll_contract`: two spurious wakes, then a mask with both
flags, on Linux. -/
theorem wait_for_poll_contract_witness :
    wait_for_poll linux dev_spurious 3 Session.start =
        (some (if dev_spurious.revents (Session.start.n_poll + 2) &&& linux.POLLERR ≠ 0
          then -linux.EIO else 0),
         { Session.start with
           n_poll := Session.start.n_poll + (2 + 1),
           trace := Session.start.trace ++
             (List.range (2 + 1)).map
               (fun i => Call.poll (dev_spurious.revents (Session.start.n_poll + i))) }) ∧
      (wait_for_poll linux dev_spurious 2 Session.start).1 = none :=
  wait_for_poll_contract linux dev_spurious 2 3 2 Session.start (by decide) (by decide)
    (by decide) (by decide)

/-! ## Theorems: the writes of one period -/

/-- Quiet calls in front do not change the scan of a period. -/
theorem writes_ok_quiet_append (P ch c : Int) (q l : List Call)
    (hq : ∀ x ∈ q, Call.quiet x = true) :
    writes_ok P ch c (q ++ l) ↔ writes_ok P ch c l := by
  induction q with
  | nil => simp
  | cons x q ih =>
    have hx := hq x (by simp)
    have ih' := ih (fun y hy => hq y (by simp [hy]))
    cases x <;> simp_all [writes_ok, Call.quiet]

/-- Quiet calls hold no call of `generate_sine`. -/
theorem no_generate_of_quiet (q : List Call) (hq : ∀ x ∈ q, Call.quiet x = true) (n : Int) :
    Call.generate_sine n ∉ q := by
  intro h
  have := hq _ h
  simp [Call.quiet] at this

/-- From the scan to the single write: the write after the calls `pre` asks for the
frames of the period less the frames that the writes in `pre` returned. -/
theorem writes_ok_at (P ch : Int) (pre post : List Call) (c p n r : Int)
    (h : writes_ok P ch c (pre ++ Call.writei p n r :: post)) :
    0 < n ∧ n ≤ P ∧ n = c - frames_written pre ∧ p = 2 * ((P - n) * ch) := by
  induction pre generalizing c with
  | nil =>
    simp only [List.nil_append, writes_ok] at h
    simp only [frames_written, sub_zero]
    exact ⟨h.1.1, h.1.2.1, h.1.2.2.1, h.1.2.2.2⟩
  | cons x pre ih =>
    cases x with
    | writei p' n' r' =>
      simp only [List.cons_append, writes_ok] at h
      have := ih (c - r') h.2
      simp only [frames_written]
      refine ⟨this.1, this.2.1, ?_, this.2.2.2⟩
      rw [this.2.2.1]; ring
    | prepare _ => simpa [writes_ok, frames_written] using ih c (by simpa [writes_ok] using h)
    | resume _ => simpa [writes_ok, frames_written] using ih c (by simpa [writes_ok] using h)
    | sleep => simpa [writes_ok, frames_written] using ih c (by simpa [writes_ok] using h)
    | state _ => simpa [writes_ok, frames_written] using ih c (by simpa [writes_ok] using h)
    | poll _ => simpa [writes_ok, frames_written] using ih c (by simpa [writes_ok] using h)
    | generate_sine _ =>
      simpa [writes_ok, frames_written] using ih c (by simpa [writes_ok] using h)

/-- The scan at a write. -/
theorem writes_ok_cons_write (P ch c p n r : Int) (rest : List Call) :
    writes_ok P ch c (Call.writei p n r :: rest) ↔
      (0 < n ∧ n ≤ P ∧ n = c ∧ p = 2 * ((P - n) * ch)) ∧ writes_ok P ch (c - r) rest :=
  Iff.rfl

/-- The loop over the writes, from any round on, when no write returns more than it
was asked for and `P * channels` fits an `unsigned int`: its calls hold no
`generate_sine`, and every write asks for the frames still to write, with the
pointer `(P - cptr) * channels` elements of `signed short` past `samples`. -/
theorem write_period_inv (S : Sys) (dev : Device) (channels : Nat) (P : Int)
    (hdev : ∀ k p c, 0 < c → dev.err k p c ≤ c) (hch : P * (channels : Int) < 2 ^ 32)
    (fuel : Nat) (ptr cptr : Int) (init : Bool)
    (s : Session) (h0 : 0 ≤ cptr) (h1 : cptr ≤ P)
    (hp : ptr = 2 * ((P - cptr) * (channels : Int))) :
    ∃ ext, (write_period S dev channels fuel ptr cptr init s).2.trace = s.trace ++ ext ∧
      (∀ n, Call.generate_sine n ∉ ext) ∧ writes_ok P channels cptr ext ∧
      (0 < cptr → fuel ≠ 0 →
        ∃ rest, ext = Call.writei ptr cptr (dev.err s.n_write ptr cptr) :: rest) := by
  induction fuel generalizing ptr cptr init s with
  | zero => exact ⟨[], by simp [write_period], by simp, by simp [writes_ok], by simp⟩
  | succ f ih =>
    by_cases hc : cptr > 0
    swap
    · exact ⟨[], by simp [write_period, hc], by simp, by simp [writes_ok],
        fun h => absurd h hc⟩
    have hhead : 0 < cptr ∧ cptr ≤ P ∧ cptr = cptr ∧
        ptr = 2 * ((P - cptr) * (channels : Int)) :=
      ⟨hc, h1, rfl, hp⟩
    by_cases hw : dev.err s.n_write ptr cptr < 0
    · -- the write fails
      obtain ⟨q, hq, hquiet⟩ := quiet_ext_xrun_recovery S dev f (call_writei dev s ptr cptr).2
        (dev.err s.n_write ptr cptr)
      refine ⟨Call.writei ptr cptr (dev.err s.n_write ptr cptr) :: q, ?_, ?_, ?_,
        fun _ _ => ⟨_, rfl⟩⟩
      · rw [write_period_error S dev channels f ptr cptr init s hc hw]
        have : ∀ r : Option Int × Session,
            (match r with
              | (none, s2) => (Status.running, s2)
              | (some e, s2) => if e < 0 then (Status.exit, s2) else (Status.next true, s2)).2
              = r.2 := by
          rintro ⟨_ | e, s2⟩
          · rfl
          · simp only; split_ifs <;> rfl
        rw [this, hq]
        simp [call_writei]
      · intro n hn
        rcases List.mem_cons.mp hn with h | h
        · cases h
        · exact no_generate_of_quiet q hquiet n h
      · rw [writes_ok_cons_write]
        refine ⟨hhead, ?_⟩
        have := (writes_ok_quiet_append P channels (cptr - dev.err s.n_write ptr cptr)
          q [] hquiet).mpr (by simp [writes_ok])
        simpa using this
    · -- the write takes `w` frames
      have hw0 : 0 ≤ dev.err s.n_write ptr cptr := not_lt.mp hw
      by_cases hall : dev.err s.n_write ptr cptr = cptr
      · refine ⟨[Call.writei ptr cptr (dev.err s.n_write ptr cptr),
          Call.state (dev.state s.n_state)], ?_, ?_, ?_, fun _ _ => ⟨_, rfl⟩⟩
        · rw [write_period_complete S dev channels f ptr cptr init s hc hall]
          simp [call_state, call_writei]
        · intro n hn; simp at hn
        · rw [writes_ok_cons_write]
          exact ⟨hhead, trivial⟩
      · obtain ⟨q, hq, hquiet⟩ := quiet_ext_poll_block S dev f
          (if (call_state dev (call_writei dev s ptr cptr).2).1 = snd_pcm_state_t.RUNNING
            then false else init)
          (call_state dev (call_writei dev s ptr cptr).2).2
        have h1' : ¬ (dev.err s.n_write ptr cptr < 0) := hw
        have h2' : ¬ (cptr - dev.err s.n_write ptr cptr = 0) := by
          intro h; exact hall (by linarith)
        have hcw : (call_writei dev s ptr cptr).1 = dev.err s.n_write ptr cptr := rfl
        have hunf : write_period S dev channels (f + 1) ptr cptr init s =
            match poll_block S dev f
              (if (call_state dev (call_writei dev s ptr cptr).2).1 = snd_pcm_state_t.RUNNING
                then false else init)
              (call_state dev (call_writei dev s ptr cptr).2).2 with
            | (Status.next init2, s3) =>
              write_period S dev channels f
                (ptr + 2 * ((dev.err s.n_write ptr cptr * (channels : Int)) % 2 ^ 32))
                (cptr - dev.err s.n_write ptr cptr) init2 s3
            | other => other := by
          simp only [write_period, gt_iff_lt, hc, if_true, hcw, h1', h2', if_false]
        have hq' : ∀ s3 : Session, s3.trace = (call_state dev (call_writei dev s ptr cptr).2).2.trace ++ q →
            s3.trace = s.trace ++ (Call.writei ptr cptr (dev.err s.n_write ptr cptr) ::
              Call.state (dev.state s.n_state) :: q) := by
          intro s3 h3
          rw [h3]; simp [call_state, call_writei]
        have hquiet2 : ∀ x ∈ Call.state (dev.state s.n_state) :: q, Call.quiet x = true := by
          intro x hx
          rcases List.mem_cons.mp hx with h | h
          · rw [h]; rfl
          · exact hquiet x h
        rw [hunf]
        rcases hpb : poll_block S dev f
            (if (call_state dev (call_writei dev s ptr cptr).2).1 = snd_pcm_state_t.RUNNING
              then false else init)
            (call_state dev (call_writei dev s ptr cptr).2).2 with ⟨st3, s3⟩
        rw [hpb] at hq
        have hstop : ∃ ext, s3.trace = s.trace ++ ext ∧
            (∀ n, Call.generate_sine n ∉ ext) ∧ writes_ok P channels cptr ext ∧
            (0 < cptr → f + 1 ≠ 0 →
              ∃ rest, ext = Call.writei ptr cptr (dev.err s.n_write ptr cptr) :: rest) := by
          refine ⟨_, hq' s3 hq, ?_, ?_, fun _ _ => ⟨_, rfl⟩⟩
          · intro n hn
            rcases List.mem_cons.mp hn with h | h
            · cases h
            · exact no_generate_of_quiet _ hquiet2 n h
          · rw [writes_ok_cons_write]
            refine ⟨hhead, ?_⟩
            have := (writes_ok_quiet_append P channels (cptr - dev.err s.n_write ptr cptr)
              (Call.state (dev.state s.n_state) :: q) [] hquiet2).mpr (by simp [writes_ok])
            simpa using this
        cases st3 with
        | next init2 =>
          simp only
          have hle := hdev s.n_write ptr cptr hc
          have hnn : 0 ≤ dev.err s.n_write ptr cptr * (channels : Int) :=
            mul_nonneg hw0 (Int.ofNat_nonneg channels)
          have hlt : dev.err s.n_write ptr cptr * (channels : Int) < 2 ^ 32 :=
            lt_of_le_of_lt
              (mul_le_mul_of_nonneg_right (le_trans hle h1) (Int.ofNat_nonneg channels)) hch
          obtain ⟨ext', he', hg', hok', _⟩ := ih
            (ptr + 2 * ((dev.err s.n_write ptr cptr * (channels : Int)) % 2 ^ 32))
            (cptr - dev.err s.n_write ptr cptr) init2 s3
            (by linarith)
            (by linarith) (by rw [Int.emod_eq_of_lt hnn hlt, hp]; ring)
          refine ⟨Call.writei ptr cptr (dev.err s.n_write ptr cptr) ::
            Call.state (dev.state s.n_state) :: (q ++ ext'), ?_, ?_, ?_, fun _ _ => ⟨_, rfl⟩⟩
          · rw [he', hq' s3 hq]; simp
          · intro n hn
            rcases List.mem_cons.mp hn with h | h
            · cases h
            · rcases List.mem_cons.mp h with h | h
              · cases h
              · rcases List.mem_append.mp h with h | h
                · exact no_generate_of_quiet q hquiet n h
                · exact hg' n h
          · rw [writes_ok_cons_write]
            refine ⟨hhead, ?_⟩
            exact (writes_ok_quiet_append P channels _
              (Call.state (dev.state s.n_state) :: q) ext' hquiet2).mpr hok'
        | ret e => exact hstop
        | exit => exact hstop
        | running => exact hstop

/-- The writes of one period of `P` frames, when no write returns more than it was
asked for and `P * channels` fits an `unsigned int`: every write asks for `c` frames
with `0 < c <= P`, where `P - c` is the sum of what the earlier writes of the period
returned, with the pointer `(P - c) * channels` elements of `signed short`, that is
`2 * (P - c) * channels` bytes, past `samples`, and no period is generated in
between. -/
theorem write_period_calls (S : Sys) (dev : Device) (channels : Nat) (P : Int)
    (fuel : Nat) (init : Bool) (s : Session)
    (hdev : ∀ j p c, 0 < c → dev.err j p c ≤ c) (hch : P * (channels : Int) < 2 ^ 32) :
    ∃ ext, (write_period S dev channels fuel 0 P init s).2.trace = s.trace ++ ext ∧
      (∀ n, Call.generate_sine n ∉ ext) ∧
      ∀ pre post p c r, ext = pre ++ Call.writei p c r :: post →
        0 < c ∧ c ≤ P ∧ c = P - frames_written pre ∧
          p = 2 * ((P - c) * (channels : Int)) := by
  by_cases hP : 0 ≤ P
  · obtain ⟨ext, he, hg, hok, _⟩ := write_period_inv S dev channels P hdev hch fuel 0 P init s
      hP le_rfl (by simp)
    refine ⟨ext, he, hg, ?_⟩
    intro pre post p c r hdec
    rw [hdec] at hok
    exact writes_ok_at P channels pre post P p c r hok
  · refine ⟨[], ?_, by simp, ?_⟩
    · cases fuel with
      | zero => simp [write_period]
      | succ f =>
        have : ¬ (P > 0) := by intro h; exact hP (le_of_lt h)
        simp [write_period, this]
    · intro pre post p c r hdec
      simp at hdec

/-- The write after a partial first write: when the first write of a period of `P`
frames returns `k` with `0 < k < P` and the readiness block after it says go on, the
loop goes round with `P - k` frames and the pointer `k * channels` elements of
`signed short`, that is `2 * k * channels` bytes, past `samples`, and its next call
is that write. -/
theorem write_period_retry (S : Sys) (dev : Device) (channels : Nat) (P k : Int)
    (f : Nat) (init init2 : Bool) (s s3 : Session)
    (hch : P * (channels : Int) < 2 ^ 32) (hk0 : 0 < k) (hk1 : k < P)
    (hfirst : dev.err s.n_write 0 P = k)
    (hgo : poll_block S dev (f + 1)
      (if (call_state dev (call_writei dev s 0 P).2).1 = snd_pcm_state_t.RUNNING
        then false else init)
      (call_state dev (call_writei dev s 0 P).2).2 = (Status.next init2, s3)) :
    write_period S dev channels (f + 2) 0 P init s =
        write_period S dev channels (f + 1) (2 * (k * (channels : Int))) (P - k) init2 s3 ∧
      ∃ rest,
        (write_period S dev channels (f + 1) (2 * (k * (channels : Int))) (P - k) init2
            s3).2.trace =
          s3.trace ++ Call.writei (2 * (k * (channels : Int))) (P - k)
            (dev.err s3.n_write (2 * (k * (channels : Int))) (P - k)) :: rest := by
  have hP : 0 < P := by linarith
  have hnn : 0 ≤ k * (channels : Int) := mul_nonneg hk0.le (Int.ofNat_nonneg channels)
  have hlt : k * (channels : Int) < 2 ^ 32 :=
    lt_of_le_of_lt (mul_le_mul_of_nonneg_right hk1.le (Int.ofNat_nonneg channels)) hch
  have hstep := write_period_partial S dev channels (f + 1) 0 P init init2 s s3 hP
    (by rw [hfirst]; exact hk0.le) (by rw [hfirst]; exact ne_of_lt hk1) hgo
  rw [hfirst, Int.emod_eq_of_lt hnn hlt] at hstep
  simp only [zero_add] at hstep
  refine ⟨hstep, ?_⟩
  obtain ⟨ext, hext⟩ := (write_period_trace_ext S dev channels (f + 1)
    (2 * (k * (channels : Int))) (P - k) init2 s3).2 (by linarith) (by omega)
  exact ⟨ext, by rw [hext]; simp [call_writei]⟩

/-- In the interleaved layout of `main` the element `k * channels` of `signed short`
is where frame `k` starts exactly when the samples are 16 bits wide; in a container
of another width it is some other byte. -/
theorem retry_pointer_eq_frame_iff (channels physical_width k : Nat) (hk : 0 < k)
    (hc : 0 < channels) (h8 : physical_width % 8 = 0) :
    (2 * ((k : Int) * (channels : Int)) =
        sample_base ⟨0, 0, channels * physical_width⟩ k) ↔ physical_width = 16 := by
  obtain ⟨w, rfl⟩ : ∃ w, physical_width = 8 * w := ⟨physical_width / 8, by omega⟩
  have hdiv : k * (channels * (8 * w)) / 8 = k * channels * w := by
    rw [show k * (channels * (8 * w)) = 8 * (k * channels * w) by ring]
    exact Nat.mul_div_cancel_left _ (by norm_num)
  have hpos : 0 < k * channels := Nat.mul_pos hk hc
  simp only [sample_base, hdiv]
  constructor
  · intro h
    have h2 : 2 * (k * channels) = k * channels * w := by
      have : ((2 * (k * channels) : Nat) : Int) = ((k * channels * w : Nat) : Int) := by
        push_cast
        simpa using h
      exact_mod_cast this
    have : w = 2 := by
      have h3 : k * channels * 2 = k * channels * w := by rw [← h2]; ring
      exact (Nat.eq_of_mul_eq_mul_left hpos h3).symm
    omega
  · intro h
    have : w = 2 := by omega
    subst this
    push_cast
    ring

/-- C9 (the code at the failing input): a mono stream of a format of 32 bits in a
container of 32 bits, in the layout of `main`, a period of 4 frames, a device that
takes half of the frames of every write.  The layout passes the check of
`generate_sine`, which fills the period; the first write returns 2 of 4 frames, and
the next write asks for the 2 frames left at the byte 4 of the buffer, which is 2
elements of `signed short` past `samples`; the write after it asks for 1 frame at
the byte 6.  Frame 2, the first frame not yet written, starts at the byte 8, frame 3
at the byte 12: the byte 4 is where frame 1 starts, and the byte 6 is inside it. -/
theorem partial_write_pointer_s32 {α : Type} [LinearOrderedField α] [FloorRing α]
    (L : Libm α) (rate : Nat) (freq : α) (b : Buffer) :
    (∃ g, generate_sine L ⟨⟨32, 32, false, false, false⟩, rate, freq, 4⟩
        (main_areas 0 1 32) 0 4 0 b = some g) ∧
    (∃ rest, (write_and_poll_loop linux dev_half L ⟨⟨32, 32, false, false, false⟩, rate, freq, 4⟩
        (main_areas 0 1 32) 6 b).2.trace =
      [Call.generate_sine 4,
        Call.writei 0 4 2, Call.state snd_pcm_state_t.RUNNING, Call.poll 0, Call.poll 4,
        Call.writei 4 2 1, Call.state snd_pcm_state_t.RUNNING, Call.poll 0, Call.poll 4,
        Call.writei 6 1 1, Call.state snd_pcm_state_t.RUNNING] ++ rest) ∧
    (List.range 4).map (fun n => (main_areas 0 1 32).map (fun a => sample_base a n)) =
      [[0], [4], [8], [12]] ∧
    (4 - 2) * ((1 : Nat) : Int) *
      (phys_bps (⟨32, 32, false, false, false⟩ : Format) : Int) = 8 := by
  refine ⟨⟨_, generate_sine_of_prepare L _ _ 0 4 0 b [(0, 4)] (by decide)⟩, ?_, by decide,
    by decide⟩
  have hw : write_and_poll_loop linux dev_half L ⟨⟨32, 32, false, false, false⟩, rate, freq, 4⟩
      (main_areas 0 1 32) 6 b =
      transfer_loop linux dev_half L ⟨⟨32, 32, false, false, false⟩, rate, freq, 4⟩
        (main_areas 0 1 32) 6 true 0 b Session.start := by
    simp [write_and_poll_loop, dev_half]
  have hp : write_period linux dev_half (main_areas 0 1 32).length 5 0 (wrap_int 4) true
      { Session.start with
        trace := Session.start.trace ++ [Call.generate_sine (wrap_int 4)] } =
      (Status.next false, ⟨0, 0, 3, 4, 3, [Call.generate_sine 4,
        Call.writei 0 4 2, Call.state snd_pcm_state_t.RUNNING, Call.poll 0, Call.poll 4,
        Call.writei 4 2 1, Call.state snd_pcm_state_t.RUNNING, Call.poll 0, Call.poll 4,
        Call.writei 6 1 1, Call.state snd_pcm_state_t.RUNNING]⟩) := by
    decide
  rw [hw, transfer_loop_first linux dev_half L _ (main_areas 0 1 32) [(0, 4)] 5 0 b
    Session.start (by decide)]
  simp only [hp]
  obtain ⟨ext, hext⟩ := transfer_loop_trace_ext linux dev_half L
    ⟨⟨32, 32, false, false, false⟩, rate, freq, 4⟩ (main_areas 0 1 32) 5 false
    (fill_loop L ⟨⟨32, 32, false, false, false⟩, rate, freq, 4⟩ (wrap_int 4).toNat [(0, 4)]
      0 b).1
    (fill_loop L ⟨⟨32, 32, false, false, false⟩, rate, freq, 4⟩ (wrap_int 4).toNat [(0, 4)]
      0 b).2
    ⟨0, 0, 3, 4, 3, [Call.generate_sine 4,
        Call.writei 0 4 2, Call.state snd_pcm_state_t.RUNNING, Call.poll 0, Call.poll 4,
        Call.writei 4 2 1, Call.state snd_pcm_state_t.RUNNING, Call.poll 0, Call.poll 4,
        Call.writei 6 1 1, Call.state snd_pcm_state_t.RUNNING]⟩
  exact ⟨ext, hext⟩

/-! ## Theorems: the stores of `generate_sine` -/

/-- The bits of 255 that are not in `m`: 255 less the low byte of `m`. -/
theorem ldiff_255 (m : Nat) : Nat.ldiff 255 m = 255 - m % 256 := by
  apply Nat.eq_of_testBit_eq
  intro i
  have h1 : (255 : Nat) = 2 ^ 8 - 1 := by norm_num
  have h2 : 255 - m % 256 = 2 ^ 8 - (m % 2 ^ 8 + 1) := by omega
  rw [Nat.testBit_ldiff, h2, Nat.testBit_two_pow_sub_succ (Nat.mod_lt _ (by norm_num)),
    Nat.testBit_mod_two_pow, h1, Nat.testBit_two_pow_sub_one]
  by_cases hi : i < 8 <;> simp [hi]

/-- On a two's complement integer the mask with `0xff` is the remainder modulo 256. -/
theorem land_0xff (v : Int) : Int.land v 0xff = v % 256 := by
  cases v with
  | ofNat m =>
    show ((m &&& 255 : Nat) : Int) = _
    have := Nat.and_pow_two_sub_one_eq_mod m 8
    norm_num at this
    rw [this]
    simp
  | negSucc m =>
    show ((Nat.ldiff 255 m : Nat) : Int) = _
    rw [ldiff_255]
    have : Int.negSucc m = -((m : Int) + 1) := rfl
    rw [this]
    omega

/-- The byte `i` of a value, by division and remainder. -/
theorem sample_byte_eq (res : Int) (i : Nat) :
    sample_byte res i = res / 2 ^ (8 * i) % 256 := by
  unfold sample_byte
  rw [land_0xff, Int.shiftRight_eq_div_pow, Nat.mul_comm]
  norm_cast

/-- The log after a list of stores. -/
theorem stores_log (b : Buffer) (ws : List (Int × Int)) : (b.stores ws).log = b.log ++ ws := by
  induction ws generalizing b with
  | nil => simp [Buffer.stores]
  | cons w ws ih =>
    have : b.stores (w :: ws) = (b.store w.1 w.2).stores ws := rfl
    rw [this, ih]
    simp [Buffer.store]

/-- Stores of two lists in a row. -/
theorem stores_append (b : Buffer) (ws1 ws2 : List (Int × Int)) :
    b.stores (ws1 ++ ws2) = (b.stores ws1).stores ws2 := by
  simp [Buffer.stores, List.foldl_append]

/-- A byte at an address that no store names is left as it was. -/
theorem stores_mem_of_not_mem (b : Buffer) (ws : List (Int × Int)) (x : Int)
    (h : ∀ w ∈ ws, w.1 ≠ x) : (b.stores ws).mem x = b.mem x := by
  induction ws generalizing b with
  | nil => rfl
  | cons w ws ih =>
    have hrec : b.stores (w :: ws) = (b.store w.1 w.2).stores ws := rfl
    rw [hrec, ih _ (fun w' hw' => h w' (by simp [hw']))]
    have hw := h w (by simp)
    simp [Buffer.store, Function.update, Ne.symm hw]

/-- The two byte loops of one channel do the stores of `packSample` at `p`. -/
theorem put_sample_eq (fmt : Format) (res p : Int) (b : Buffer) :
    put_sample fmt res p b =
      b.stores ((packSample res (bps fmt) (phys_bps fmt) fmt.big_endian).map
        fun w => (p + w.1, w.2)) := by
  unfold put_sample Buffer.stores packSample
  rw [List.map_map, List.foldl_map]
  refine congrArg (fun f => List.foldl f b (List.range (bps fmt))) ?_
  funext b i
  cases hbe : fmt.big_endian
  · simp [sample_byte, Nat.mul_comm]
  · simp only [if_true, Function.comp_apply, sample_byte, Nat.mul_comm]
    congr 1
    ring

/-- One frame: every pointer moves on by its stride, and the stores are those of
`packSample` at every pointer. -/
theorem fill_frame_eq (fmt : Format) (res : Int) (ps : List (Int × Int)) (b : Buffer) :
    fill_frame fmt res ps b =
      (ps.map (fun q => (q.1 + q.2, q.2)),
       b.stores (ps.flatMap fun q =>
         (packSample res (bps fmt) (phys_bps fmt) fmt.big_endian).map
           fun w => (q.1 + w.1, w.2))) := by
  induction ps generalizing b with
  | nil => simp [fill_frame, Buffer.stores]
  | cons q ps ih =>
    obtain ⟨p, s⟩ := q
    simp only [fill_frame, ih, put_sample_eq, List.map_cons, List.flatMap_cons, stores_append]

section StoresLemmas

variable {α : Type} [LinearOrderedField α] [FloorRing α]

/-- The buffer after `n` frames from the pointers `ps`. -/
theorem fill_loop_buffer (L : Libm α) (G : Globals α) (n : Nat) (ps : List (Int × Int))
    (phase : α) (b : Buffer) :
    (fill_loop L G n ps phase b).2 =
      b.stores ((List.range n).flatMap fun j =>
        ps.flatMap fun q =>
          (packSample (frame_value L G phase j) (bps G.format) (phys_bps G.format)
            G.format.big_endian).map fun w => (q.1 + (j : Int) * q.2 + w.1, w.2)) := by
  induction n generalizing ps phase b with
  | zero => simp [fill_loop, Buffer.stores]
  | succ n ih =>
    simp only [fill_loop, fill_frame_eq, ih]
    rw [List.range_succ_eq_map, List.flatMap_cons, stores_append, List.flatMap_map]
    congr 2
    · apply List.flatMap_congr
      intro q _
      simp [frame_value]
    · funext j
      rw [List.flatMap_map]
      apply List.flatMap_congr
      intro q _
      have hv : frame_value L G (next_phase L G phase) j = frame_value L G phase (Nat.succ j) := by
        simp [frame_value, Function.iterate_succ_apply]
      rw [hv]
      apply List.map_congr_left
      intro w _
      simp only [Nat.succ_eq_add_one, Nat.cast_add, Nat.cast_one, Prod.mk.injEq, and_true]
      ring

end StoresLemmas

/-- What the check of the areas decides, and the pointers and strides it computes. -/
theorem prepare_areas_eq (offset : Nat) (areas : List snd_pcm_channel_area_t) :
    prepare_areas offset areas =
      if ∀ a ∈ areas, a.first % 8 = 0 ∧ a.step % 16 = 0 then
        some (areas.map fun a =>
          (a.addr + ((a.first / 8 : Nat) : Int) + (offset : Int) * ((a.step / 8 : Nat) : Int),
           ((a.step / 8 : Nat) : Int)))
      else none := by
  induction areas with
  | nil => simp [prepare_areas]
  | cons a rest ih =>
    by_cases h3 : ∀ a ∈ rest, a.first % 8 = 0 ∧ a.step % 16 = 0
    · rw [if_pos h3] at ih
      by_cases h1 : a.first % 8 = 0
      · by_cases h2 : a.step % 16 = 0
        · rw [if_pos (by
            intro x hx
            rcases List.mem_cons.mp hx with h | h
            · rw [h]; exact ⟨h1, h2⟩
            · exact h3 x h)]
          simp only [prepare_areas, ih, h1, h2, ne_eq, not_true_eq_false, if_false, List.map_cons]
        · rw [if_neg (by intro h; exact h2 (h a (by simp)).2)]
          simp only [prepare_areas, h1, h2, ne_eq, not_true_eq_false, not_false_eq_true,
            if_false, if_true]
      · rw [if_neg (by intro h; exact h1 (h a (by simp)).1)]
        simp only [prepare_areas, h1, ne_eq, not_false_eq_true, if_true]
    · rw [if_neg h3] at ih
      rw [if_neg (by intro h; exact h3 (fun x hx => h x (by simp [hx])))]
      simp only [prepare_areas, ih]
      split_ifs <;> rfl

section StoresTheorems

variable {α : Type} [LinearOrderedField α] [FloorRing α]

/-- On a layout that passes the check, `generate_sine` returns the phase moved on by
`count` frames and the buffer after the stores of the reference, in their order. -/
theorem generate_sine_stores (L : Libm α) (G : Globals α)
    (areas : List snd_pcm_channel_area_t) (offset : Nat) (count : Int) (phase : α) (b : Buffer)
    (hacc : ∀ a ∈ areas, a.first % 8 = 0 ∧ a.step % 16 = 0) :
    generate_sine L G areas offset count phase b =
      some ((next_phase L G)^[count.toNat] phase,
            b.stores (reference_stores L G areas offset count.toNat phase)) := by
  unfold generate_sine
  rw [prepare_areas_eq, if_pos hacc]
  simp only [Option.some.injEq]
  refine Prod.ext (fill_loop_phase L G _ _ _ _) ?_
  rw [fill_loop_buffer]
  unfold reference_stores
  congr 1
  apply List.flatMap_congr
  intro j _
  rw [List.flatMap_map]
  apply List.flatMap_congr
  intro a ha
  apply List.map_congr_left
  intro w _
  have h8 : 8 ∣ a.step := by
    have := (hacc a ha).2
    omega
  simp only [sample_base, Nat.mul_div_assoc _ h8, Prod.mk.injEq, and_true]
  push_cast
  ring

/-- When `generate_sine` exits: some offset is not a multiple of 8 bits, or some
stride is not a multiple of 16 bits. -/
theorem generate_sine_fatal_iff (L : Libm α) (G : Globals α)
    (areas : List snd_pcm_channel_area_t) (offset : Nat) (count : Int) (phase : α) (b : Buffer) :
    generate_sine L G areas offset count phase b = none ↔
      ∃ a ∈ areas, a.first % 8 ≠ 0 ∨ a.step % 16 ≠ 0 := by
  unfold generate_sine
  rw [prepare_areas_eq]
  by_cases h : ∀ a ∈ areas, a.first % 8 = 0 ∧ a.step % 16 = 0
  · rw [if_pos h]
    constructor
    · intro hn; cases hn
    · rintro ⟨a, ha, hne⟩
      rcases hne with h1 | h2
      · exact absurd (h a ha).1 h1
      · exact absurd (h a ha).2 h2
  · rw [if_neg h]
    refine ⟨fun _ => ?_, fun _ => rfl⟩
    push_neg at h
    obtain ⟨a, ha, hne⟩ := h
    refine ⟨a, ha, ?_⟩
    by_cases h1 : a.first % 8 = 0
    · exact Or.inr (hne h1)
    · exact Or.inl h1

end StoresTheorems

/-- The reference list of one sample has `bps` entries. -/
theorem packSample_length (v : Int) (bps phys_bps : Nat) (be : Bool) :
    (packSample v bps phys_bps be).length = bps := by
  simp [packSample]

/-- The places of the reference list lie in the physical container. -/
theorem packSample_place (v : Int) (bps phys_bps : Nat) (be : Bool) (h : bps ≤ phys_bps)
    (w : Int × Int) (hw : w ∈ packSample v bps phys_bps be) :
    0 ≤ w.1 ∧ w.1 < (phys_bps : Int) := by
  simp only [packSample, List.mem_map, List.mem_range] at hw
  obtain ⟨i, hi, rfl⟩ := hw
  cases be
  · simp only [Bool.false_eq_true, if_false]
    omega
  · simp only [if_true]
    omega

/-! ## The sign bit of the unsigned formats -/

/-- Flipping the bit `k` of `x` is adding `2 ^ k` modulo `2 ^ (k + 1)`. -/
theorem xor_two_pow_mod (x k : Nat) :
    (x ^^^ 2 ^ k) % 2 ^ (k + 1) = (x + 2 ^ k) % 2 ^ (k + 1) := by
  apply Nat.eq_of_testBit_eq
  intro i
  rw [Nat.testBit_mod_two_pow, Nat.testBit_mod_two_pow, Nat.testBit_xor, Nat.testBit_two_pow,
    Nat.add_comm x (2 ^ k)]
  by_cases hi : i < k + 1
  · rcases Nat.lt_succ_iff_lt_or_eq.mp hi with h | h
    · rw [Nat.testBit_two_pow_add_gt h]
      have : ¬ (k = i) := by omega
      simp [this]
    · subst h
      rw [Nat.testBit_two_pow_add_eq]
      simp
  · simp [hi]

/-- The value `to_int u` is `u` modulo `2 ^ 32`. -/
theorem to_int_emod (u : Nat) : to_int u % 2 ^ 32 = (u : Int) % 2 ^ 32 := by
  unfold to_int
  split_ifs
  · push_cast
    exact Int.emod_emod_of_dvd _ (dvd_refl _)
  · push_cast
    rw [Int.sub_emod, Int.emod_self, sub_zero, Int.emod_emod_of_dvd _ (dvd_refl _),
      Int.emod_emod_of_dvd _ (dvd_refl _)]

/-- The sample of an unsigned integer format of at most 32 bits: in its
`format_bits` low bits, which are the bits that `generate_sine` stores, it is the
scaled sine with the sign bit `1 << (format_bits - 1)` flipped, that is the scaled
sine plus `2 ^ (format_bits - 1)` modulo `2 ^ format_bits`. -/
theorem sample_unsigned {α : Type} [LinearOrderedField α] [FloorRing α]
    (L : Libm α) (fmt : Format) (phase : α) (hf : fmt.is_float = false)
    (hu : fmt.to_unsigned = true) (h1 : 1 ≤ fmt.format_bits) (h32 : fmt.format_bits ≤ 32) :
    sample L fmt phase % 2 ^ fmt.format_bits =
      (trunc (L.sin phase * (maxval fmt : α)) + 2 ^ (fmt.format_bits - 1)) %
        2 ^ fmt.format_bits := by
  obtain ⟨k, hk⟩ : ∃ k, fmt.format_bits = k + 1 := ⟨fmt.format_bits - 1, by omega⟩
  have hk31 : k < 32 := by omega
  have hdvd : ((2 : Int) ^ (k + 1)) ∣ 2 ^ 32 := pow_dvd_pow 2 (by omega)
  have hpow : (1 <<< k) % 2 ^ 32 = 2 ^ k := by
    rw [Nat.one_shiftLeft]
    exact Nat.mod_eq_of_lt (Nat.pow_lt_pow_right (by norm_num) hk31)
  generalize hres : trunc (L.sin phase * (maxval fmt : α)) = res
  have hs : sample L fmt phase = to_int ((res % 2 ^ 32).toNat ^^^ 2 ^ k) := by
    simp only [sample, hf, hu, hk, Nat.add_sub_cancel, hpow, hres, if_true, Bool.false_eq_true,
      if_false]
  have hu0 : (0 : Int) ≤ res % 2 ^ 32 := Int.emod_nonneg _ (by norm_num)
  have hcast : (((res % 2 ^ 32).toNat : Nat) : Int) = res % 2 ^ 32 := Int.toNat_of_nonneg hu0
  rw [hs, hk, Nat.add_sub_cancel]
  calc to_int ((res % 2 ^ 32).toNat ^^^ 2 ^ k) % 2 ^ (k + 1)
      = (to_int ((res % 2 ^ 32).toNat ^^^ 2 ^ k) % 2 ^ 32) % 2 ^ (k + 1) :=
        (Int.emod_emod_of_dvd _ hdvd).symm
    _ = ((((res % 2 ^ 32).toNat ^^^ 2 ^ k : Nat) : Int) % 2 ^ 32) % 2 ^ (k + 1) := by
        rw [to_int_emod]
    _ = (((res % 2 ^ 32).toNat ^^^ 2 ^ k : Nat) : Int) % 2 ^ (k + 1) :=
        Int.emod_emod_of_dvd _ hdvd
    _ = ((((res % 2 ^ 32).toNat ^^^ 2 ^ k) % 2 ^ (k + 1) : Nat) : Int) := by
        push_cast; rfl
    _ = ((((res % 2 ^ 32).toNat + 2 ^ k) % 2 ^ (k + 1) : Nat) : Int) := by
        rw [xor_two_pow_mod]
    _ = (((res % 2 ^ 32).toNat : Int) + 2 ^ k) % 2 ^ (k + 1) := by
        push_cast; rfl
    _ = (res % 2 ^ 32 + 2 ^ k) % 2 ^ (k + 1) := by
        rw [hcast]
    _ = (res + 2 ^ k) % 2 ^ (k + 1) := by
        rw [Int.add_emod, Int.emod_emod_of_dvd _ hdvd, ← Int.add_emod]

/-- The sample of `U8` at the phase 0 is the bias `0x80`. -/
theorem sample_u8_zero : sample libm_q ⟨8, 8, false, true, false⟩ 0 = 128 := by
  have h0 : trunc (libm_q.sin 0 * ((maxval ⟨8, 8, false, true, false⟩ : Nat) : ℚ)) = 0 := by
    simp [trunc, libm_q]
  simp only [sample, h0, Bool.false_eq_true, if_false, if_true]
  decide

/-! ## Theorems: the claims on the packing and on the check of the areas -/

/-- The packing on the layouts that pass the check of the areas: for every format
with `format_bits` in {8, 16, 24, 32} and `phys_bps >= bps`, `generate_sine` does
exactly the stores of the reference `packSample`: for every frame `n < count`
and every channel, in this order, the `bps` bytes `(v >> 8*i) & 0xff` of the
frame's sample `v` at `base + i` (little-endian) or `base + phys_bps - 1 - i`
(big-endian), `base = addr + first/8 + (offset+n)*step/8`; every byte at another
address is left unchanged. -/
theorem generate_sine_packing {α : Type} [LinearOrderedField α] [FloorRing α]
    (L : Libm α) (G : Globals α) (areas : List snd_pcm_channel_area_t) (offset : Nat)
    (count : Int) (phase : α) (b : Buffer)
    (hbits : G.format.format_bits = 8 ∨ G.format.format_bits = 16 ∨
      G.format.format_bits = 24 ∨ G.format.format_bits = 32)
    (hphys : bps G.format ≤ phys_bps G.format)
    (hacc : (prepare_areas offset areas).isSome = true) :
    ∃ r, generate_sine L G areas offset count phase b = some r ∧
      r.2 = b.stores (reference_stores L G areas offset count.toNat phase) ∧
      r.2.log = b.log ++ reference_stores L G areas offset count.toNat phase ∧
      (∀ x, (∀ w ∈ reference_stores L G areas offset count.toNat phase, w.1 ≠ x) →
        r.2.mem x = b.mem x) ∧
      (∀ v, (packSample v (bps G.format) (phys_bps G.format) G.format.big_endian).length =
        bps G.format) ∧
      8 * bps G.format = G.format.format_bits ∧
      (∀ v, ∀ w ∈ packSample v (bps G.format) (phys_bps G.format) G.format.big_endian,
        0 ≤ w.1 ∧ w.1 < (phys_bps G.format : Int)) := by
  have hall : ∀ a ∈ areas, a.first % 8 = 0 ∧ a.step % 16 = 0 := by
    by_contra h
    rw [prepare_areas_eq, if_neg h] at hacc
    simp at hacc
  refine ⟨_, generate_sine_stores L G areas offset count phase b hall, rfl, stores_log _ _,
    fun x hx => stores_mem_of_not_mem _ _ x hx, fun v => packSample_length _ _ _ _, ?_,
    fun v w hw => packSample_place v _ _ _ hphys w hw⟩
  unfold bps
  omega

/-- An instance of `generate_sine_packing`: `U16_BE` in a container of 32 bits, two
channels, two frames from the frame offset 1. -/
theorem generate_sine_packing_u16_be :
    ∃ r, generate_sine libm_q { globals_q with format := ⟨16, 32, true, true, false⟩ }
        [⟨0, 0, 64⟩, ⟨0, 32, 64⟩] 1 2 (1 / 2) Buffer.zero = some r ∧
      r.2 = Buffer.zero.stores (reference_stores libm_q
        { globals_q with format := ⟨16, 32, true, true, false⟩ }
        [⟨0, 0, 64⟩, ⟨0, 32, 64⟩] 1 (2 : Int).toNat (1 / 2)) ∧
      r.2.log = Buffer.zero.log ++ reference_stores libm_q
        { globals_q with format := ⟨16, 32, true, true, false⟩ }
        [⟨0, 0, 64⟩, ⟨0, 32, 64⟩] 1 (2 : Int).toNat (1 / 2) ∧
      (∀ x, (∀ w ∈ reference_stores libm_q
          { globals_q with format := ⟨16, 32, true, true, false⟩ }
          [⟨0, 0, 64⟩, ⟨0, 32, 64⟩] 1 (2 : Int).toNat (1 / 2), w.1 ≠ x) →
        r.2.mem x = Buffer.zero.mem x) ∧
      (∀ v, (packSample v (bps (⟨16, 32, true, true, false⟩ : Format))
          (phys_bps (⟨16, 32, true, true, false⟩ : Format)) true).length =
        bps (⟨16, 32, true, true, false⟩ : Format)) ∧
      8 * bps (⟨16, 32, true, true, false⟩ : Format) = 16 ∧
      (∀ v, ∀ w ∈ packSample v (bps (⟨16, 32, true, true, false⟩ : Format))
          (phys_bps (⟨16, 32, true, true, false⟩ : Format)) true,
        0 ≤ w.1 ∧ w.1 < (phys_bps (⟨16, 32, true, true, false⟩ : Format) : Int)) :=
  generate_sine_packing libm_q { globals_q with format := ⟨16, 32, true, true, false⟩ }
    [⟨0, 0, 64⟩, ⟨0, 32, 64⟩] 1 2 (1 / 2) Buffer.zero (by decide) (by decide) (by decide)

/-- C2 (the code at the failing input): the packed mono layout of a format of 24
bits in a container of 24 bits, offset 0 and stride 24 bits.  Both fields are
multiples of 8, `format_bits = 24` and `bps = 3 = phys_bps`; the reference
`packSample` asks for three stores for the first frame, at the bytes 0, 1 and 2 of
the buffer (in the order 2, 1, 0 when big-endian), and `generate_sine` exits on this
layout before any store, whatever the byte order and the sign of the format, the
frame offset, the count and the phase. -/
theorem generate_sine_packing_rejected {α : Type} [LinearOrderedField α] [FloorRing α]
    (L : Libm α) (G : Globals α) (be us : Bool) (offset : Nat) (count : Int) (phase : α)
    (b : Buffer) :
    ((⟨0, 0, 24⟩ : snd_pcm_channel_area_t).first % 8 = 0 ∧
      (⟨0, 0, 24⟩ : snd_pcm_channel_area_t).step % 8 = 0) ∧
      (bps (⟨24, 24, be, us, false⟩ : Format) = 3 ∧
        phys_bps (⟨24, 24, be, us, false⟩ : Format) = 3) ∧
      (reference_stores L { G with format := ⟨24, 24, be, us, false⟩ } [⟨0, 0, 24⟩] 0 1
        phase).map Prod.fst = (if be then [2, 1, 0] else [0, 1, 2]) ∧
      generate_sine L { G with format := ⟨24, 24, be, us, false⟩ } [⟨0, 0, 24⟩] offset count
        phase b = none := by
  refine ⟨by decide, ⟨by simp [bps], by simp [phys_bps]⟩, ?_, ?_⟩
  · have h3 : bps (⟨24, 24, be, us, false⟩ : Format) = 3 := by simp [bps]
    have hp3 : phys_bps (⟨24, 24, be, us, false⟩ : Format) = 3 := by simp [phys_bps]
    have hr1 : List.range 1 = [0] := rfl
    have hr3 : List.range 3 = [0, 1, 2] := rfl
    cases be <;>
      simp [reference_stores, packSample, sample_base, h3, hp3, hr1, hr3]
  · rw [generate_sine_fatal_iff]
    exact ⟨⟨0, 0, 24⟩, by simp, by decide⟩

/-- C3 (the code at the failing input): the packed mono layout of an 8-bit format,
offset 0 and stride 8 bits, has both fields multiples of 8, and `generate_sine`
exits on it, whatever the format, the frame offset, the count and the phase. -/
theorem generate_sine_rejects_byte_stride {α : Type} [LinearOrderedField α] [FloorRing α]
    (L : Libm α) (G : Globals α) (offset : Nat) (count : Int) (phase : α) (b : Buffer) :
    ((⟨0, 0, 8⟩ : snd_pcm_channel_area_t).first % 8 = 0 ∧
      (⟨0, 0, 8⟩ : snd_pcm_channel_area_t).step % 8 = 0) ∧
      generate_sine L G [⟨0, 0, 8⟩] offset count phase b = none := by
  refine ⟨by decide, ?_⟩
  rw [generate_sine_fatal_iff]
  exact ⟨⟨0, 0, 8⟩, by simp, by decide⟩

/-! ## Theorems: the accuracy of the sine -/

/-- The phase after `n` frames is the start plus `n` steps less a whole number of
turns. -/
theorem iterate_next_phase_eq {α : Type} [LinearOrderedField α] (L : Libm α) (G : Globals α)
    (n : Nat) (phase : α) :
    ∃ k : Nat, (next_phase L G)^[n] phase =
      phase + (n : α) * phase_step L G - (k : α) * max_phase L := by
  induction n with
  | zero => exact ⟨0, by simp⟩
  | succ n ih =>
    obtain ⟨k, hk⟩ := ih
    rw [Function.iterate_succ_apply', hk]
    unfold next_phase
    simp only [ge_iff_le]
    split_ifs
    · exact ⟨k + 1, by push_cast; ring⟩
    · exact ⟨k, by push_cast; ring⟩

/-- The conversion to `int` stays within a bound that is a whole number. -/
theorem abs_trunc_le {α : Type} [LinearOrderedField α] [FloorRing α] (y : α) (M : Int)
    (h : |y| ≤ (M : α)) : |trunc y| ≤ M := by
  have h1 := (abs_le.mp h).1
  have h2 := (abs_le.mp h).2
  have hM : (0 : α) ≤ (M : α) := le_trans (abs_nonneg y) h
  have hM' : (0 : Int) ≤ M := by exact_mod_cast hM
  unfold trunc
  split_ifs with h0
  · have hf0 : (0 : Int) ≤ ⌊y⌋ := Int.floor_nonneg.mpr h0
    have hf1 : ((⌊y⌋ : Int) : α) ≤ (M : α) := le_trans (Int.floor_le y) h2
    have hf1' : ⌊y⌋ ≤ M := by exact_mod_cast hf1
    rw [abs_le]; constructor <;> omega
  · push_neg at h0
    have hc0 : ⌈y⌉ ≤ 0 := Int.ceil_le.mpr (by exact_mod_cast h0.le)
    have hc1 : ((-M : Int) : α) ≤ ((⌈y⌉ : Int) : α) := by
      push_cast
      exact le_trans h1 (Int.le_ceil y)
    have hc1' : -M ≤ ⌈y⌉ := by exact_mod_cast hc1
    rw [abs_le]; constructor <;> omega

/-- The conversion to `int` is within one of the rounded value. -/
theorem abs_trunc_sub_round_le (y : ℝ) : |trunc y - round y| ≤ 1 := by
  have hr := abs_le.mp (abs_sub_round y)
  unfold trunc
  split_ifs with h0
  · have h1 := Int.floor_le y
    have h2 := Int.lt_floor_add_one y
    have ha : ((⌊y⌋ - round y : Int) : ℝ) < 2 := by push_cast; linarith [hr.1, hr.2]
    have hb : (-2 : ℝ) < ((⌊y⌋ - round y : Int) : ℝ) := by push_cast; linarith [hr.1, hr.2]
    have ha' : ⌊y⌋ - round y < 2 := by exact_mod_cast ha
    have hb' : -2 < ⌊y⌋ - round y := by exact_mod_cast hb
    rw [abs_le]; constructor <;> omega
  · have h1 := Int.le_ceil y
    have h2 := Int.ceil_lt_add_one y
    have ha : ((⌈y⌉ - round y : Int) : ℝ) < 2 := by push_cast; linarith [hr.1, hr.2]
    have hb : (-2 : ℝ) < ((⌈y⌉ - round y : Int) : ℝ) := by push_cast; linarith [hr.1, hr.2]
    have ha' : ⌈y⌉ - round y < 2 := by exact_mod_cast ha
    have hb' : -2 < ⌈y⌉ - round y := by exact_mod_cast hb
    rw [abs_le]; constructor <;> omega

/-- Two bytes written low first read back as the value, for a value of 16 bits. -/
theorem read_s16_le_bytes (mem : Int → Int) (a v : Int) (h0 : -32768 ≤ v) (h1 : v ≤ 32767)
    (hlo : mem a = v % 256) (hhi : mem (a + 1) = (v >>> (8 : Nat)) % 256) :
    read_s16_le mem a = v := by
  unfold read_s16_le
  rw [hlo, hhi, Int.shiftRight_eq_div_pow]
  norm_num
  split_ifs <;> omega

/-- The bytes in memory after the stores of a mono stream of 16-bit samples. -/
theorem stores_mono16_mem (b : Buffer) (f g : Nat → Int) (N n : Nat) (hn : n < N) :
    (b.stores ((List.range N).flatMap fun j =>
        [(((2 * j : Nat) : Int), f j), (((2 * j + 1 : Nat) : Int), g j)])).mem ((2 * n : Nat) : Int)
        = f n ∧
      (b.stores ((List.range N).flatMap fun j =>
        [(((2 * j : Nat) : Int), f j), (((2 * j + 1 : Nat) : Int), g j)])).mem
          ((2 * n + 1 : Nat) : Int) = g n := by
  induction N with
  | zero => omega
  | succ N ih =>
    rw [List.range_succ, List.flatMap_append, stores_append]
    simp only [List.flatMap_cons, List.flatMap_nil, List.append_nil]
    have hlast : ∀ (c : Buffer) (x : Int),
        (c.stores [(((2 * N : Nat) : Int), f N), (((2 * N + 1 : Nat) : Int), g N)]).mem x =
          if x = ((2 * N + 1 : Nat) : Int) then g N
          else if x = ((2 * N : Nat) : Int) then f N else c.mem x := by
      intro c x
      simp only [Buffer.stores, List.foldl, Buffer.store, Function.update]
      split_ifs <;> simp_all
    rw [hlast, hlast]
    by_cases hN : n = N
    · subst hN
      constructor
      · rw [if_neg (by omega), if_pos rfl]
      · rw [if_pos rfl]
    · have hlt : n < N := by omega
      have := ih hlt
      constructor
      · rw [if_neg (by omega), if_neg (by omega)]; exact this.1
      · rw [if_neg (by omega), if_neg (by omega)]; exact this.2

/-- The reference stores of a packed mono stream of `S16_LE` samples that starts at
the address 0: frame `j` puts its low byte at `2*j` and its high byte at `2*j+1`. -/
theorem reference_stores_mono16 {α : Type} [LinearOrderedField α] [FloorRing α]
    (L : Libm α) (G : Globals α) (hfmt : G.format = ⟨16, 16, false, false, false⟩)
    (N : Nat) (phase : α) :
    reference_stores L G [⟨0, 0, 16⟩] 0 N phase =
      (List.range N).flatMap fun j =>
        [(((2 * j : Nat) : Int), frame_value L G phase j % 256),
         (((2 * j + 1 : Nat) : Int), (frame_value L G phase j >>> (8 : Nat)) % 256)] := by
  unfold reference_stores
  apply List.flatMap_congr
  intro j _
  have hb : (0 + j) * 16 / 8 = 2 * j := by omega
  have hz : frame_value L G phase j >>> (0 : Nat) = frame_value L G phase j := by
    rw [Int.shiftRight_eq_div_pow]; simp
  have hl0 := land_0xff (frame_value L G phase j)
  have hl1 := land_0xff (frame_value L G phase j >>> (8 : Nat))
  norm_num at hl0 hl1
  simp only [packSample, bps, phys_bps, hfmt, sample_base, hb, List.flatMap_cons,
    List.flatMap_nil, List.append_nil, Nat.reduceDiv, List.range_succ, List.range_zero,
    List.nil_append, List.map_append, List.map_cons, List.map_nil, Bool.false_eq_true,
    if_false, Nat.zero_div, Nat.cast_zero, add_zero, zero_add, Nat.mul_zero, Nat.mul_one,
    List.cons_append, hz, hl0, hl1]
  simp
  omega

/-- The sample of a frame in the format `S16`: the sine scaled by 32767, cut to a
whole number. -/
theorem frame_value_s16 {α : Type} [LinearOrderedField α] [FloorRing α]
    (L : Libm α) (G : Globals α) (hfmt : G.format = ⟨16, 16, false, false, false⟩)
    (phase : α) (n : Nat) :
    frame_value L G phase n = trunc (L.sin ((next_phase L G)^[n] phase) * 32767) := by
  have hm : maxval (⟨16, 16, false, false, false⟩ : Format) = 32767 := by decide
  simp [frame_value, sample, hfmt, hm]

/-- The samples of `N` frames of mono `S16_LE` at 44100 Hz, for a tone of 440 Hz from
the phase 0, in exact real arithmetic. -/
theorem sine_s16_frames (fb : ℝ → Int) (b : Buffer) (N n : Nat) (hn : n < N) :
    ∃ r, generate_sine (⟨Real.sin, Real.pi, fb⟩ : Libm ℝ)
        ⟨⟨16, 16, false, false, false⟩, 44100, 440, 4410⟩ [⟨0, 0, 16⟩] 0 (N : Int) 0 b
          = some r ∧
      r.2.mem 0 = 0 ∧ r.2.mem 1 = 0 ∧ read_s16_le r.2.mem 0 = 0 ∧
      |read_s16_le r.2.mem (2 * (n : Int)) -
        round (32767 * Real.sin (2 * Real.pi * 440 * (n : ℝ) / 44100))| ≤ 1 ∧
      |read_s16_le r.2.mem (2 * (n : Int))| ≤ 32767 := by
  set L : Libm ℝ := ⟨Real.sin, Real.pi, fb⟩ with hL
  set G : Globals ℝ := ⟨⟨16, 16, false, false, false⟩, 44100, 440, 4410⟩ with hG
  have hgen := generate_sine_stores L G [⟨0, 0, 16⟩] 0 (N : Int) 0 b (by simp)
  refine ⟨_, hgen, ?_⟩
  simp only [Int.toNat_ofNat]
  rw [reference_stores_mono16 L G rfl]
  -- the value of every frame
  have hv : ∀ m : Nat, frame_value L G 0 m =
      trunc (Real.sin (2 * Real.pi * 440 * (m : ℝ) / 44100) * 32767) := by
    intro m
    rw [frame_value_s16 L G rfl]
    obtain ⟨k, hk⟩ := iterate_next_phase_eq L G m 0
    rw [hk]
    have hs : (0 : ℝ) + (m : ℝ) * phase_step L G - (k : ℝ) * max_phase L =
        2 * Real.pi * 440 * (m : ℝ) / 44100 - (k : ℝ) * (2 * Real.pi) := by
      simp only [phase_step, max_phase, hL, hG]
      push_cast
      ring
    show trunc (Real.sin _ * 32767) = _
    rw [hs, Real.sin_sub_nat_mul_two_pi]
  have hbound : ∀ m : Nat, |frame_value L G 0 m| ≤ 32767 := by
    intro m
    rw [hv]
    apply abs_trunc_le
    rw [abs_mul]
    have h1 := Real.abs_sin_le_one (2 * Real.pi * 440 * (m : ℝ) / 44100)
    have h2 : |(32767 : ℝ)| = 32767 := abs_of_pos (by norm_num)
    rw [h2]
    push_cast
    nlinarith [abs_nonneg (Real.sin (2 * Real.pi * 440 * (m : ℝ) / 44100))]
  -- the bytes in memory
  have hmem := fun m (hm : m < N) => stores_mono16_mem b
    (fun j => frame_value L G 0 j % 256)
    (fun j => (frame_value L G 0 j >>> (8 : Nat)) % 256) N m hm
  have hread : ∀ m : Nat, m < N →
      read_s16_le (b.stores ((List.range N).flatMap fun j =>
        [(((2 * j : Nat) : Int), frame_value L G 0 j % 256),
         (((2 * j + 1 : Nat) : Int), (frame_value L G 0 j >>> (8 : Nat)) % 256)])).mem
        (2 * (m : Int)) = frame_value L G 0 m := by
    intro m hm
    have hb := abs_le.mp (hbound m)
    apply read_s16_le_bytes _ _ _ (by linarith [hb.1]) hb.2
    · have := (hmem m hm).1
      simpa using this
    · have := (hmem m hm).2
      simpa using this
  have hv0 : frame_value L G 0 0 = 0 := by
    rw [hv 0]
    simp [trunc]
  have h0 := hmem 0 (by omega)
  refine ⟨?_, ?_, ?_, ?_, ?_⟩
  · have := h0.1
    simpa [hv0] using this
  · have := h0.2
    simpa [hv0] using this
  · have := hread 0 (by omega)
    simpa [hv0] using this
  · rw [hread n hn, hv n, mul_comm (32767 : ℝ)]
    exact abs_trunc_sub_round_le _
  · rw [hread n hn]
    exact hbound n

/-- C10: in exact real arithmetic, for mono `S16_LE` at 44100 Hz, a tone of 440 Hz,
the phase 0 at the start and 4410 frames, the 16-bit sample `s_n` that
`generate_sine` stores for frame `n < 4410` (bytes `2n` and `2n+1`) satisfies
`|s_n - round(32767 * sin(2*pi*440*n/44100))| <= 1` and `|s_n| <= 32767`, and
`s_0 = 0` with both bytes zero. -/
theorem sine_accuracy (fb : ℝ → Int) (b : Buffer) (n : Nat) (hn : n < 4410) :
    ∃ r, generate_sine (⟨Real.sin, Real.pi, fb⟩ : Libm ℝ)
        ⟨⟨16, 16, false, false, false⟩, 44100, 440, 4410⟩ [⟨0, 0, 16⟩] 0 4410 0 b = some r ∧
      r.2.mem 0 = 0 ∧ r.2.mem 1 = 0 ∧ read_s16_le r.2.mem 0 = 0 ∧
      |read_s16_le r.2.mem (2 * (n : Int)) -
        round (32767 * Real.sin (2 * Real.pi * 440 * (n : ℝ) / 44100))| ≤ 1 ∧
      |read_s16_le r.2.mem (2 * (n : Int))| ≤ 32767 :=
  sine_s16_frames fb b 4410 n hn

/-- Witness of `sine_accuracy`: the frame 1, from a buffer of zeros. -/
theorem sine_accuracy_witness :
    ∃ r, generate_sine (⟨Real.sin, Real.pi, fun _ => 0⟩ : Libm ℝ)
        ⟨⟨16, 16, false, false, false⟩, 44100, 440, 4410⟩ [⟨0, 0, 16⟩] 0 4410 0
        Buffer.zero = some r ∧
      r.2.mem 0 = 0 ∧ r.2.mem 1 = 0 ∧ read_s16_le r.2.mem 0 = 0 ∧
      |read_s16_le r.2.mem (2 * ((1 : Nat) : Int)) -
        round (32767 * Real.sin (2 * Real.pi * 440 * ((1 : Nat) : ℝ) / 44100))| ≤ 1 ∧
      |read_s16_le r.2.mem (2 * ((1 : Nat) : Int))| ≤ 32767 :=
  sine_accuracy (fun _ => 0) Buffer.zero 1 (by decide)

/-! ## Theorems: the big-endian round trip -/

/-- The remainder modulo a product, from the remainders of the factors. -/
theorem emod_mul_split (x a b : Int) (ha : 0 < a) (hb : 0 < b) :
    x % (a * b) = x % a + a * ((x / a) % b) := by
  have h2 := Int.emod_add_ediv (x / a) b
  have h1 := Int.emod_add_ediv x a
  have r0 := Int.emod_nonneg x ha.ne'
  have r1 := Int.emod_lt_of_pos x ha
  have q0 := Int.emod_nonneg (x / a) hb.ne'
  have q1 := Int.emod_lt_of_pos (x / a) hb
  have hx : x = (x % a + a * ((x / a) % b)) + (a * b) * ((x / a) / b) := by
    have : a * (x / a) = a * ((x / a) % b) + a * b * ((x / a) / b) := by
      conv_lhs => rw [← h2]
      ring
    linarith
  have hlt : x % a + a * ((x / a) % b) < a * b := by
    have : a * ((x / a) % b) ≤ a * (b - 1) := mul_le_mul_of_nonneg_left (by omega) ha.le
    nlinarith
  have hnn : 0 ≤ x % a + a * ((x / a) % b) := by positivity
  conv_lhs => rw [hx]
  rw [Int.add_mul_emod_self_left]
  exact Int.emod_eq_of_lt hnn hlt

/-- The bytes of a value, weighted by the powers of 256, add up to the value cut to
its low `8 * n` bits. -/
theorem sum_sample_bytes (res : Int) (n : Nat) :
    ((List.range n).map fun (i : Nat) => sample_byte res i * 256 ^ i).sum =
      res % 2 ^ (8 * n) := by
  induction n with
  | zero => simp
  | succ n ih =>
    rw [List.range_succ, List.map_append, List.sum_append, ih]
    simp only [List.map_cons, List.map_nil, List.sum_cons, List.sum_nil, add_zero]
    have h256 : (256 : Int) ^ n = 2 ^ (8 * n) := by
      rw [pow_mul]; norm_num
    have hsplit : (2 : Int) ^ (8 * (n + 1)) = 2 ^ (8 * n) * 256 := by
      rw [Nat.mul_add, pow_add]; norm_num
    rw [hsplit, emod_mul_split res (2 ^ (8 * n)) 256 (by positivity) (by norm_num),
      sample_byte_eq, h256]
    ring

/-- After the stores of a loop over `i < n` at addresses that differ from one
another, every address holds the byte of its round. -/
theorem foldl_store_mem (addr val : Nat → Int) (hinj : ∀ i j, addr i = addr j → i = j)
    (n : Nat) (b : Buffer) (i : Nat) (hi : i < n) :
    ((List.range n).foldl (fun (b : Buffer) (i : Nat) => b.store (addr i) (val i)) b).mem
      (addr i) = val i := by
  induction n with
  | zero => omega
  | succ n ih =>
    rw [List.range_succ, List.foldl_append]
    simp only [List.foldl_cons, List.foldl_nil, Buffer.store]
    by_cases h : i = n
    · subst h
      simp [Function.update]
    · have hne : addr i ≠ addr n := fun he => h (hinj i n he)
      simp only [Function.update, hne, dite_false]
      exact ih (by omega)

/-- The memory after the big-endian stores of one sample: the byte `i` of the value
is at the offset `phys_bps - 1 - i` of the container. -/
theorem put_sample_big_endian_mem (fmt : Format) (res p : Int) (b : Buffer)
    (hbe : fmt.big_endian = true) (i : Nat) (hi : i < bps fmt) :
    (put_sample fmt res p b).mem (p + (phys_bps fmt : Int) - 1 - (i : Int)) =
      sample_byte res i := by
  unfold put_sample
  simp only [hbe, if_true]
  exact foldl_store_mem (fun i => p + (phys_bps fmt : Int) - 1 - (i : Int))
    (fun i => sample_byte res i) (by intro i j h; simp only at h; omega) (bps fmt) b i hi

/-- Reading back what the big-endian stores of one sample wrote. -/
theorem read_be_put_sample (fmt : Format) (res p : Int) (b : Buffer)
    (hbe : fmt.big_endian = true) :
    read_be (put_sample fmt res p b).mem p (bps fmt) (phys_bps fmt) =
      res % 2 ^ (8 * bps fmt) := by
  unfold read_be
  rw [← sum_sample_bytes]
  congr 1
  apply List.map_congr_left
  intro i hi
  rw [put_sample_big_endian_mem fmt res p b hbe i (List.mem_range.mp hi)]

/-- Sign extension undoes the cut to `bits` bits on the signed range. -/
theorem sign_extend_emod (bits : Nat) (res : Int) (hb : 0 < bits)
    (h0 : -(2 ^ (bits - 1)) ≤ res) (h1 : res ≤ 2 ^ (bits - 1) - 1) :
    sign_extend bits (res % 2 ^ bits) = res := by
  have hpow : (2 : Int) ^ bits = 2 * 2 ^ (bits - 1) := by
    conv_lhs => rw [show bits = (bits - 1) + 1 by omega]
    rw [pow_succ]; ring
  have hp : (0 : Int) < 2 ^ (bits - 1) := by positivity
  unfold sign_extend
  by_cases hneg : res < 0
  · have hm : res % 2 ^ bits = res + 2 ^ bits := by
      rw [← Int.add_mul_emod_self_left res (2 ^ bits) 1, mul_one]
      exact Int.emod_eq_of_lt (by linarith) (by linarith)
    rw [hm, if_neg (by linarith)]
    ring
  · have hm : res % 2 ^ bits = res := Int.emod_eq_of_lt (by linarith) (by linarith)
    rw [hm, if_pos (by linarith)]

/-- C11: for a big-endian format with `bps` in {1, 2, 3, 4} and `phys_bps >= bps`,
and every value `res`, reading back the `bps` bytes that the big-endian stores of
one sample put at the offsets `phys_bps - 1 - i` of the container, as the sum of
`byte_i * 256^i`, gives `res mod 2^(8*bps)`; when `res` is in the signed range of
`8*bps` bits, sign extension gives `res` itself; the shifts stay below 32 bits and
the offsets inside the container; and one frame of `generate_sine` on one accepted
area reads back as the sample of the phase cut to `8*bps` bits. -/
theorem big_endian_round_trip {α : Type} [LinearOrderedField α] [FloorRing α]
    (L : Libm α) (G : Globals α) (a : snd_pcm_channel_area_t) (offset : Nat) (phase : α)
    (res p : Int) (b : Buffer) (hbe : G.format.big_endian = true)
    (hbps : bps G.format = 1 ∨ bps G.format = 2 ∨ bps G.format = 3 ∨ bps G.format = 4)
    (hphys : bps G.format ≤ phys_bps G.format)
    (ha : a.first % 8 = 0 ∧ a.step % 16 = 0) :
    read_be (put_sample G.format res p b).mem p (bps G.format) (phys_bps G.format) =
        res % 2 ^ (8 * bps G.format) ∧
      (-(2 ^ (8 * bps G.format - 1)) ≤ res → res ≤ 2 ^ (8 * bps G.format - 1) - 1 →
        sign_extend (8 * bps G.format)
          (read_be (put_sample G.format res p b).mem p (bps G.format) (phys_bps G.format)) =
            res) ∧
      (∀ i : Nat, i < bps G.format →
        i * 8 < 32 ∧ 0 ≤ (phys_bps G.format : Int) - 1 - (i : Int) ∧
          (phys_bps G.format : Int) - 1 - (i : Int) < (phys_bps G.format : Int)) ∧
      ∃ r, generate_sine L G [a] offset 1 phase b = some r ∧
        read_be r.2.mem (sample_base a offset) (bps G.format) (phys_bps G.format) =
          sample L G.format phase % 2 ^ (8 * bps G.format) := by
  have hread := read_be_put_sample G.format res p b hbe
  refine ⟨hread, ?_, ?_, ?_⟩
  · intro h0 h1
    rw [hread]
    exact sign_extend_emod (8 * bps G.format) res (by omega) h0 h1
  · intro i hi
    omega
  · have hgen := generate_sine_stores L G [a] offset 1 phase b
      (by intro x hx; rw [List.mem_singleton.mp hx]; exact ha)
    refine ⟨_, hgen, ?_⟩
    have hst : b.stores (reference_stores L G [a] offset (1 : Int).toNat phase) =
        put_sample G.format (sample L G.format phase) (sample_base a offset) b := by
      rw [put_sample_eq]
      simp [reference_stores, frame_value, List.range_succ]
    show read_be (b.stores (reference_stores L G [a] offset (1 : Int).toNat phase)).mem _ _ _ = _
    rw [hst]
    exact read_be_put_sample G.format _ _ b hbe

/-- Witness of `big_endian_round_trip`: `S16_BE` in a container of 32 bits, the
value -2 at the address 4, and the second channel of a stereo layout. -/
theorem big_endian_round_trip_witness :
    read_be (put_sample (⟨16, 32, true, false, false⟩ : Format) (-2) 4 Buffer.zero).mem 4
        (bps (⟨16, 32, true, false, false⟩ : Format))
        (phys_bps (⟨16, 32, true, false, false⟩ : Format)) =
        (-2) % 2 ^ (8 * bps (⟨16, 32, true, false, false⟩ : Format)) ∧
      sign_extend (8 * bps (⟨16, 32, true, false, false⟩ : Format))
        (read_be (put_sample (⟨16, 32, true, false, false⟩ : Format) (-2) 4 Buffer.zero).mem 4
          (bps (⟨16, 32, true, false, false⟩ : Format))
          (phys_bps (⟨16, 32, true, false, false⟩ : Format))) = -2 ∧
      (∀ i : Nat, i < bps (⟨16, 32, true, false, false⟩ : Format) →
        i * 8 < 32 ∧ 0 ≤ (phys_bps (⟨16, 32, true, false, false⟩ : Format) : Int) - 1 - (i : Int) ∧
          (phys_bps (⟨16, 32, true, false, false⟩ : Format) : Int) - 1 - (i : Int) <
            (phys_bps (⟨16, 32, true, false, false⟩ : Format) : Int)) ∧
      ∃ r, generate_sine libm_q { globals_q with format := ⟨16, 32, true, false, false⟩ }
          [⟨0, 32, 64⟩] 1 1 (1 / 2) Buffer.zero = some r ∧
        read_be r.2.mem (sample_base ⟨0, 32, 64⟩ 1)
          (bps (⟨16, 32, true, false, false⟩ : Format))
          (phys_bps (⟨16, 32, true, false, false⟩ : Format)) =
          sample libm_q (⟨16, 32, true, false, false⟩ : Format) (1 / 2) %
            2 ^ (8 * bps (⟨16, 32, true, false, false⟩ : Format)) :=
  have h := big_endian_round_trip libm_q { globals_q with format := ⟨16, 32, true, false, false⟩ }
    ⟨0, 32, 64⟩ 1 (1 / 2) (-2) 4 Buffer.zero rfl (by decide) (by decide) (by decide)
  ⟨h.1, h.2.1 (by decide) (by decide), h.2.2.1, h.2.2.2⟩

/-! ## Theorems: the writes into the buffer of `main` -/

section MainLemmas

variable {α : Type} [LinearOrderedField α] [FloorRing α]

end MainLemmas

end Pcm
